import Mathlib

/-!
Shallow embedding of the core module src/hilbertcurve/hilbertcurve.py of
galtay/hilbertcurve, together with proofs about it.

Python binary strings are modelled as lists of booleans (most significant
bit first, one boolean per character), Python lists of nonnegative integers
as List Nat (in-place index assignment is List.set), and numeric inputs of
the validating wrappers (which may be fractional) as rationals.  The while
loops of the algorithm, whose control variable q runs through powers of two,
are modelled as folds over the corresponding list of exponents; the
correspondence is noted at each definition.
-/

namespace HilbertPy

/-- Bit length of a natural number (number of binary digits, 0 for 0),
computed with explicit fuel so that it is structural and kernel-evaluable. -/
def bitLenFuel : Nat → Nat → Nat
  | 0, _ => 0
  | f + 1, n => if n = 0 then 0 else bitLenFuel f (n / 2) + 1

/-- Number of characters of Python format(num, 'b'): the number of binary
digits of num, and 1 for num = 0 (whose representation is the string 0). -/
def pyBitLen (num : Nat) : Nat := max 1 (bitLenFuel num num)

/-- Python format(num, 'b') as a list of bits, most significant first. -/
def pyFormatB (num : Nat) : List Bool :=
  (List.range (pyBitLen num)).map (fun k => num.testBit (pyBitLen num - 1 - k))

/-- Python helper _binary_repr(num, width) = format(num, 'b').zfill(width):
the binary string of num left padded with zeros to width characters
(zfill never truncates, so the result is longer than width if num needs
more digits). -/
def binary_repr (num width : Nat) : List Bool :=
  List.replicate (width - (pyFormatB num).length) false ++ pyFormatB num

/-- Value of a binary string, most significant bit first: Python int(s, 2). -/
def bitsToNat (s : List Bool) : Nat :=
  s.foldl (fun a b => 2 * a + (if b then 1 else 0)) 0

/-- Python string slicing s[i::step]: the characters at positions
i, i + step, i + 2*step, ... . -/
def sliceStride (s : List Bool) (i step : Nat) : List Bool :=
  ((List.range s.length).filter (fun k => i ≤ k && (k - i) % step == 0)).map
    (fun k => s.getD k false)

/-- HilbertCurve._hilbert_integer_to_transpose (lines 85-97):
h_bit_str = _binary_repr(h, p*n); x = [int(h_bit_str[i::n], 2) for i in range(n)]. -/
def hilbert_integer_to_transpose (p n h : Nat) : List Nat :=
  (List.range n).map (fun i => bitsToNat (sliceStride (binary_repr h (p * n)) i n))

/-- HilbertCurve._transpose_to_hilbert_integer (lines 100-112):
x_bit_str = [_binary_repr(x[i], p) for i in range(n)];
h = int(''.join([y[i] for i in range(p) for y in x_bit_str]), 2). -/
def transpose_to_hilbert_integer (p n : Nat) (x : List Nat) : Nat :=
  bitsToNat (List.flatten ((List.range p).map (fun i =>
    (List.range n).map (fun m => (binary_repr (x.getD m 0) p).getD i false))))

/-- Body of the invert/exchange inner loops shared by point_from_distance
(lines 138-146) and distance_from_point (lines 219-225): with P = q - 1,
if x[i] & q: x[0] ^= P (invert), else t = (x[0] ^ x[i]) & P; x[0] ^= t;
x[i] ^= t (exchange). -/
def undoStep (q : Nat) (x : List Nat) (i : Nat) : List Nat :=
  if (x.getD i 0) &&& q ≠ 0 then
    x.set 0 ((x.getD 0 0) ^^^ (q - 1))
  else
    let t := ((x.getD 0 0) ^^^ (x.getD i 0)) &&& (q - 1)
    let x1 := x.set 0 ((x.getD 0 0) ^^^ t)
    x1.set i ((x1.getD i 0) ^^^ t)

/-- One pass of the undo excess work loop of point_from_distance at a given
q: for i in range(n-1, -1, -1), i.e. i = n-1 down to 0. -/
def undoPassDec (q n : Nat) (x : List Nat) : List Nat :=
  ((List.range n).reverse).foldl (undoStep q) x

/-- One pass of the inverse undo excess work loop of distance_from_point at
a given q: for i in range(n), i.e. i = 0 up to n-1. -/
def undoPassEnc (q n : Nat) (x : List Nat) : List Nat :=
  (List.range n).foldl (undoStep q) x

/-- The undo excess work while loop of point_from_distance (lines 135-147):
q starts at 2 and doubles while q != z where z = 2 << (p-1) = 2^p, so q
visits 2^1, 2^2, ..., 2^(p-1) in that order (no iterations when p = 1). -/
def undoLoopDec (p n : Nat) (x : List Nat) : List Nat :=
  (List.range (p - 1)).foldl (fun y k => undoPassDec (2 ^ (k + 1)) n y) x

/-- The inverse undo excess work while loop of distance_from_point
(lines 216-226): q starts at m = 1 << (p-1) = 2^(p-1) and halves while
q > 1, so q visits 2^(p-1), 2^(p-2), ..., 2^1 in that order. -/
def undoLoopEnc (p n : Nat) (x : List Nat) : List Nat :=
  ((List.range (p - 1)).reverse).foldl (fun y k => undoPassEnc (2 ^ (k + 1)) n y) x

/-- One assignment x[j+1] ^= x[j] of the Gray code loops. -/
def grayStep (x : List Nat) (j : Nat) : List Nat :=
  x.set (j + 1) ((x.getD (j + 1) 0) ^^^ (x.getD j 0))

/-- Gray decode loop of point_from_distance (lines 130-131):
for i in range(n-1, 0, -1): x[i] ^= x[i-1] (indices i = j+1 for j running
down (range (n-1)).reverse). -/
def grayDecodeLoop (n : Nat) (x : List Nat) : List Nat :=
  ((List.range (n - 1)).reverse).foldl grayStep x

/-- Gray encode loop of distance_from_point (lines 229-230):
for i in range(1, n): x[i] ^= x[i-1]. -/
def grayEncodeLoop (n : Nat) (x : List Nat) : List Nat :=
  (List.range (n - 1)).foldl grayStep x

/-- Accumulation of t in distance_from_point (lines 231-236): t = 0; q runs
2^(p-1), ..., 2^1 and t ^= q - 1 whenever bit q of w is set. -/
def tAccum (p w : Nat) : Nat :=
  ((List.range (p - 1)).reverse).foldl
    (fun t k => if w &&& 2 ^ (k + 1) ≠ 0 then t ^^^ (2 ^ (k + 1) - 1) else t) 0

/-- Final loop of distance_from_point (lines 237-238):
for i in range(n): point[i] ^= t. -/
def xorLoop (n t : Nat) (x : List Nat) : List Nat :=
  (List.range n).foldl (fun y i => y.set i ((y.getD i 0) ^^^ t)) x

/-- The XOR phases of HilbertCurve.point_from_distance (lines 126-149),
operating on the transpose array: Gray decode by H ^ (H/2) (t is taken
from x[n-1] before the loop), then the undo excess work loop. -/
def gray_decode (p n : Nat) (x0 : List Nat) : List Nat :=
  let t := (x0.getD (n - 1) 0) >>> 1
  let x1 := grayDecodeLoop n x0
  let x2 := x1.set 0 ((x1.getD 0 0) ^^^ t)
  undoLoopDec p n x2

/-- HilbertCurve.point_from_distance (lines 115-149).  The method performs
no validation of its argument. -/
def point_from_distance (p n : Nat) (distance : Nat) : List Nat :=
  gray_decode p n (hilbert_integer_to_transpose p n distance)

/-- The XOR phases of HilbertCurve.distance_from_point (lines 213-238):
inverse undo excess work loop, Gray encode loop, then point[i] ^= t for
every i with t accumulated from point[n-1]. -/
def gray_encode (p n : Nat) (point : List Nat) : List Nat :=
  let x1 := undoLoopEnc p n point
  let x2 := grayEncodeLoop n x1
  let t := tAccum p (x2.getD (n - 1) 0)
  xorLoop n t x2

/-- HilbertCurve.distance_from_point (lines 201-241).  The method performs
no validation of its argument; components at indices n and beyond are never
read or written.  This embedding is total: an out-of-bounds read yields 0,
so it agrees with the source only on points of length at least n.  The
bounds-checked embedding distance_from_point_checked below also models the
IndexError the source raises on shorter points. -/
def distance_from_point (p n : Nat) (point : List Nat) : Nat :=
  transpose_to_hilbert_integer p n (gray_encode p n point)

/-- Left fold of a fallible step over a list, stopping at the first
failure: the semantics of a Python for loop whose body may raise. -/
def foldlO {σ α : Type} (f : σ → α → Option σ) : σ → List α → Option σ
  | s, [] => some s
  | s, a :: as =>
    match f s a with
    | some y => foldlO f y as
    | none => none

/-- Bounds-checked undoStep: the subscripts point[i] and point[0] of
lines 220-225 raise IndexError when the index is not below len(point).
The read point[i] in the condition of line 220 succeeds exactly when
i < len(point), and index 0 is then also in bounds, so both reads are
checked up front; the arithmetic is then that of undoStep. -/
def undoStepC (q : Nat) (x : List Nat) (i : Nat) : Option (List Nat) :=
  match x[i]?, x[0]? with
  | some xi, some x0 =>
    some (if xi &&& q ≠ 0 then
      x.set 0 (x0 ^^^ (q - 1))
    else
      let t := (x0 ^^^ xi) &&& (q - 1)
      let x1 := x.set 0 (x0 ^^^ t)
      x1.set i ((x1.getD i 0) ^^^ t))
  | _, _ => none

/-- Bounds-checked undoPassEnc: for i in range(n) (line 219) with the
checked step. -/
def undoPassEncC (q n : Nat) (x : List Nat) : Option (List Nat) :=
  foldlO (undoStepC q) x (List.range n)

/-- Bounds-checked undoLoopEnc: the while loop of lines 216-226 with the
checked pass. -/
def undoLoopEncC (p n : Nat) (x : List Nat) : Option (List Nat) :=
  foldlO (fun y k => undoPassEncC (2 ^ (k + 1)) n y) x ((List.range (p - 1)).reverse)

/-- Bounds-checked grayStep: point[i] ^= point[i-1] (line 230) with i =
j + 1 reads point[j+1] and point[j], raising IndexError when either index
is not below len(point). -/
def grayStepC (x : List Nat) (j : Nat) : Option (List Nat) :=
  match x[j + 1]?, x[j]? with
  | some a, some b => some (x.set (j + 1) (a ^^^ b))
  | _, _ => none

/-- Bounds-checked Gray encode loop: for i in range(1, n) (lines 229-230)
with the checked step. -/
def grayEncodeLoopC (n : Nat) (x : List Nat) : Option (List Nat) :=
  foldlO grayStepC x (List.range (n - 1))

/-- Bounds-checked accumulation of t (lines 231-236): each of the p - 1
iterations of the while loop reads point[n-1], raising IndexError when
n - 1 is not below len(point). -/
def tAccumC (p n : Nat) (x : List Nat) : Option Nat :=
  foldlO (fun t k =>
    match x[n - 1]? with
    | some w => some (if w &&& 2 ^ (k + 1) ≠ 0 then t ^^^ (2 ^ (k + 1) - 1) else t)
    | none => none) 0 ((List.range (p - 1)).reverse)

/-- Bounds-checked body of the final loop: point[i] ^= t (line 238) raises
IndexError when i is not below len(point). -/
def xorStepC (t : Nat) (x : List Nat) (i : Nat) : Option (List Nat) :=
  match x[i]? with
  | some a => some (x.set i (a ^^^ t))
  | none => none

/-- Bounds-checked final loop: for i in range(n) (lines 237-238) with the
checked step. -/
def xorLoopC (n t : Nat) (x : List Nat) : Option (List Nat) :=
  foldlO (xorStepC t) x (List.range n)

/-- Sequence of checked reads x[i] for i running over a list of indices,
failing at the first out-of-bounds read, as in the comprehension of
line 110. -/
def readAll (x : List Nat) : List Nat → Option (List Nat)
  | [] => some []
  | i :: is =>
    match x[i]?, readAll x is with
    | some v, some vs => some (v :: vs)
    | _, _ => none

/-- Bounds-checked _transpose_to_hilbert_integer (lines 100-112): the
comprehension of line 110 reads x[i] for i in range(n), raising IndexError
when some index is not below len(x); the bit-string join of line 111 then
operates on the components read. -/
def transpose_to_hilbert_integerC (p n : Nat) (x : List Nat) : Option Nat :=
  (readAll x (List.range n)).map (fun comps =>
    bitsToNat (List.flatten ((List.range p).map (fun i =>
      (List.range n).map (fun m => (binary_repr (comps.getD m 0) p).getD i false)))))

/-- HilbertCurve.distance_from_point (lines 201-241) with the bounds
checks of Python list subscripting made explicit: every phase runs in
sequence and the first IndexError aborts the call.  On points of length at
least n this agrees with the total embedding distance_from_point; on
shorter points some subscript is out of bounds and the call raises instead
of returning a distance. -/
def distance_from_point_checked (p n : Nat) (point : List Nat) : Option Nat :=
  (undoLoopEncC p n point).bind (fun x1 =>
    (grayEncodeLoopC n x1).bind (fun x2 =>
      (tAccumC p n x2).bind (fun t =>
        (xorLoopC n t x2).bind (fun x3 =>
          transpose_to_hilbert_integerC p n x3))))

/-- Python x % 1 for a rational x: the fractional part (in [0,1) also for
negative x, as in Python). -/
def pyMod1 (x : ℚ) : ℚ := x - (Rat.floor x : ℚ)

/-- Python int(x) for a rational x, used only on values that passed the
(x % 1) != 0 and x >= 0 checks, where truncation and floor agree. -/
def pyToNat (x : ℚ) : Nat := (Rat.floor x).toNat

/-- Error kinds of the batch validation, named as in the specification:
a TypeError of the source is invalidType, a ValueError about a bound is
outOfRange, a ValueError about a point length is dimensionMismatch. -/
inductive BatchKind
  | invalidType
  | outOfRange
  | dimensionMismatch
  deriving DecidableEq

/-- A batch validation failure: the index of the offending item and the
kind of its first failing check. -/
structure BatchError where
  index : Nat
  kind : BatchKind
  deriving DecidableEq

/-- The checks applied to one distance by points_from_distances
(lines 168-180), in source order: TypeError if dist % 1 != 0, ValueError
if dist > max_h = 2^(p*n)-1, ValueError if dist < min_h = 0. -/
def checkDistance (p n : Nat) (dist : ℚ) : Option BatchKind :=
  if pyMod1 dist ≠ 0 then some .invalidType
  else if dist > ((2 ^ (p * n) - 1 : Nat) : ℚ) then some .outOfRange
  else if dist < 0 then some .outOfRange
  else none

/-- The validation loop for ii, item in enumerate(items): the first failing
item (with its index) decides the raised error. -/
def firstFailure {α : Type} (f : α → Option BatchKind) : Nat → List α → Option BatchError
  | _, [] => none
  | i, a :: rest =>
    match f a with
    | some k => some ⟨i, k⟩
    | none => firstFailure f (i + 1) rest

/-- HilbertCurve.points_from_distances (lines 152-198) with match_type=False
and n_procs=0: validate every distance first, then map point_from_distance. -/
def points_from_distances (p n : Nat) (distances : List ℚ) :
    Except BatchError (List (List Nat)) :=
  match firstFailure (checkDistance p n) 0 distances with
  | some e => .error e
  | none => .ok (distances.map (fun d => point_from_distance p n (pyToNat d)))

/-- The checks applied to one point by distances_from_points
(lines 260-280), in source order: ValueError if len(point) != n, ValueError
if any component > max_x = 2^p-1, ValueError if any component < min_x = 0,
TypeError if any component is non-integral. -/
def checkPoint (p n : Nat) (point : List ℚ) : Option BatchKind :=
  if point.length ≠ n then some .dimensionMismatch
  else if point.any (fun e => e > ((2 ^ p - 1 : Nat) : ℚ)) then some .outOfRange
  else if point.any (fun e => e < 0) then some .outOfRange
  else if point.any (fun e => pyMod1 e ≠ 0) then some .invalidType
  else none

/-- HilbertCurve.distances_from_points (lines 244-298) with match_type=False
and n_procs=0: validate every point first, then map distance_from_point. -/
def distances_from_points (p n : Nat) (points : List (List ℚ)) :
    Except BatchError (List Nat) :=
  match firstFailure (checkPoint p n) 0 points with
  | some e => .error e
  | none => .ok (points.map (fun pt => distance_from_point p n (pt.map pyToNat)))

/-- Constructor failures of HilbertCurve.__init__ (lines 49-82).  The first
three are TypeErrors, the last three ValueErrors; the specification
classifies every one of them as the single error kind InvalidParameter. -/
inductive InitError
  | pNotIntegral
  | nNotIntegral
  | nProcsNotIntegral
  | pNotPositive
  | nNotPositive
  | nProcsNegative
  deriving DecidableEq

/-- The state built by a successful HilbertCurve.__init__: p, n and the
derived bounds.  nProcs = none models n_procs = -1 (cpu_count, an
environment-dependent value). -/
structure HCData where
  p : Nat
  n : Nat
  min_h : Nat
  max_h : Nat
  min_x : Nat
  max_x : Nat
  nProcs : Option Nat
  deriving DecidableEq

/-- HilbertCurve.__init__ (lines 29-82): integrality checks for p, n,
n_procs (TypeError), then positivity checks for p and n (ValueError), then
the derived bounds, then the n_procs cases. -/
def hilbert_curve_init (p n n_procs : ℚ) : Except InitError HCData :=
  if pyMod1 p ≠ 0 then .error .pNotIntegral
  else if pyMod1 n ≠ 0 then .error .nNotIntegral
  else if pyMod1 n_procs ≠ 0 then .error .nProcsNotIntegral
  else if Rat.floor p ≤ 0 then .error .pNotPositive
  else if Rat.floor n ≤ 0 then .error .nNotPositive
  else if Rat.floor n_procs = -1 then
    .ok ⟨(Rat.floor p).toNat, (Rat.floor n).toNat, 0,
      2 ^ ((Rat.floor p).toNat * (Rat.floor n).toNat) - 1, 0,
      2 ^ (Rat.floor p).toNat - 1, none⟩
  else if Rat.floor n_procs = 0 then
    .ok ⟨(Rat.floor p).toNat, (Rat.floor n).toNat, 0,
      2 ^ ((Rat.floor p).toNat * (Rat.floor n).toNat) - 1, 0,
      2 ^ (Rat.floor p).toNat - 1, some 0⟩
  else if Rat.floor n_procs > 0 then
    .ok ⟨(Rat.floor p).toNat, (Rat.floor n).toNat, 0,
      2 ^ ((Rat.floor p).toNat * (Rat.floor n).toNat) - 1, 0,
      2 ^ (Rat.floor p).toNat - 1, some (Rat.floor n_procs).toNat⟩
  else .error .nProcsNegative

/-- A fragment of the Python heap: addresses holding list-of-int objects.
Used to state that distance_from_point never mutates its argument object. -/
abbrev Heap := Nat → List Nat

/-- Write the list value v to address a. -/
def hupd (σ : Heap) (a : Nat) (v : List Nat) : Heap :=
  fun r => if r = a then v else σ r

/-- In-place mutation of the list object stored at address a. -/
def mutateAt (σ : Heap) (a : Nat) (f : List Nat → List Nat) : Heap :=
  hupd σ a (f (σ a))

/-- HilbertCurve.distance_from_point with Python object identity made
explicit: line 211 (point = [int(el) for el in point]) allocates a fresh
list at the next free address alloc, copied from the argument object at
address src; every later in-place XOR phase mutates only that fresh list.
Returns the final heap, the next free address and the distance. -/
def distance_from_point_heap (p n : Nat) (σ : Heap) (alloc src : Nat) :
    Heap × Nat × Nat :=
  let σ1 := hupd σ alloc ((σ src).map (fun e => e))
  let σ2 := ((List.range (p - 1)).reverse).foldl
      (fun τ k => mutateAt τ alloc (undoPassEnc (2 ^ (k + 1)) n)) σ1
  let σ3 := mutateAt σ2 alloc (grayEncodeLoop n)
  let σ4 := mutateAt σ3 alloc (fun l => xorLoop n (tAccum p (l.getD (n - 1) 0)) l)
  (σ4, alloc + 1, transpose_to_hilbert_integer p n (σ4 alloc))

/-- The n_procs = 0 transform loop of distances_from_points (lines 282-286)
on heap values: the validation pre-pass is read-only, so only the per-item
transforms are heap-relevant; each appends its distance to the result. -/
def distances_from_points_heap (p n : Nat) (σ : Heap) (alloc : Nat)
    (addrs : List Nat) : Heap × Nat × List Nat :=
  addrs.foldl (fun st a =>
    let r := distance_from_point_heap p n st.1 st.2.1 a
    (r.1, r.2.1, st.2.2 ++ [r.2.2])) (σ, alloc, [])

/-! Basic facts about getD, set, and folds. -/

theorem getD_eq_getElem {α : Type} (l : List α) (d : α) (i : Nat) (h : i < l.length) :
    l.getD i d = l[i] := by
  simp [List.getD_eq_getElem?_getD, List.getElem?_eq_getElem h]

theorem getD_eq_default {α : Type} (l : List α) (d : α) (i : Nat) (h : l.length ≤ i) :
    l.getD i d = d := by
  simp [List.getD_eq_getElem?_getD, List.getElem?_eq_none h]

theorem getD_set_self (l : List Nat) (i v : Nat) (h : i < l.length) :
    (l.set i v).getD i 0 = v := by
  rw [getD_eq_getElem _ _ i (by simpa using h)]
  simp [List.getElem_set, h]

theorem getD_set_ne (l : List Nat) (i j v : Nat) (h : i ≠ j) :
    (l.set i v).getD j 0 = l.getD j 0 := by
  by_cases hj : j < l.length
  · rw [getD_eq_getElem _ _ j (by simpa using hj), getD_eq_getElem _ _ j hj]
    simp [List.getElem_set, h]
  · rw [getD_eq_default _ _ j (by simpa using Nat.le_of_not_lt hj),
      getD_eq_default _ _ j (Nat.le_of_not_lt hj)]

theorem set_getD_self (l : List Nat) (i : Nat) (h : i < l.length) :
    l.set i (l.getD i 0) = l := by
  apply List.ext_getElem (by simp)
  intro j hj hj2
  rw [List.getElem_set]
  by_cases hij : i = j
  · subst hij
    rw [if_pos rfl, getD_eq_getElem l 0 i hj2]
  · rw [if_neg hij]

theorem foldl_invariant {α β : Type} (f : β → α → β) (P : β → Prop) (l : List α) :
    ∀ b : β, (∀ a ∈ l, ∀ c, P c → P (f c a)) → P b → P (List.foldl f b l) := by
  induction l with
  | nil => intro b _ hb; exact hb
  | cons a t ih =>
    intro b h hb
    exact ih (f b a) (fun a2 ha2 c hc => h a2 (List.mem_cons_of_mem a ha2) c hc)
      (h a (List.mem_cons_self a t) b hb)

theorem foldl_cancel {α β : Type} (f g : β → α → β) (P : β → Prop) (l : List α) :
    ∀ b : β, (∀ a ∈ l, ∀ c, P c → P (f c a)) →
      (∀ a ∈ l, ∀ c, P c → g (f c a) a = c) →
      P b → List.foldl g (List.foldl f b l) l.reverse = b := by
  induction l with
  | nil => intro b _ _ _; rfl
  | cons a t ih =>
    intro b hpres hinv hb
    have hmem : a ∈ a :: t := List.mem_cons_self a t
    have hb2 : P (f b a) := hpres a hmem b hb
    have step : List.foldl f b (a :: t) = List.foldl f (f b a) t := rfl
    rw [step, List.reverse_cons, List.foldl_append]
    have inner : List.foldl g (List.foldl f (f b a) t) t.reverse = f b a :=
      ih (f b a) (fun a2 h2 c hc => hpres a2 (List.mem_cons_of_mem a h2) c hc)
        (fun a2 h2 c hc => hinv a2 (List.mem_cons_of_mem a h2) c hc) hb2
    rw [inner]
    exact hinv a hmem b hb

/-! Characterization of bitsToNat, pyFormatB and binary_repr on in-range
arguments: lengths and bitwise values. -/

theorem bitsToNat_foldl_init (s : List Bool) : ∀ a : Nat,
    s.foldl (fun a b => 2 * a + (if b then 1 else 0)) a
      = a * 2 ^ s.length + s.foldl (fun a b => 2 * a + (if b then 1 else 0)) 0 := by
  induction s with
  | nil => intro a; simp
  | cons b t ih =>
    intro a
    show List.foldl _ (2 * a + (if b then 1 else 0)) t
      = a * 2 ^ (t.length + 1) + List.foldl _ (2 * 0 + (if b then 1 else 0)) t
    rw [ih (2 * a + (if b then 1 else 0)), ih (2 * 0 + (if b then 1 else 0))]
    ring

theorem bitsToNat_cons (b : Bool) (t : List Bool) :
    bitsToNat (b :: t) = (if b then 1 else 0) * 2 ^ t.length + bitsToNat t := by
  show List.foldl _ (2 * 0 + (if b then 1 else 0)) t = _
  rw [bitsToNat_foldl_init t (2 * 0 + (if b then 1 else 0))]
  simp [bitsToNat]

theorem bitsToNat_lt (s : List Bool) : bitsToNat s < 2 ^ s.length := by
  induction s with
  | nil => exact Nat.zero_lt_one
  | cons b t ih =>
    rw [bitsToNat_cons]
    have hb : (if b then 1 else 0) ≤ 1 := by cases b <;> simp
    calc (if b then 1 else 0) * 2 ^ t.length + bitsToNat t
        ≤ 1 * 2 ^ t.length + bitsToNat t := by
          exact Nat.add_le_add_right (Nat.mul_le_mul_right _ hb) _
      _ < 2 ^ t.length + 2 ^ t.length := by
          rw [Nat.one_mul]; exact Nat.add_lt_add_left ih _
      _ = 2 ^ (b :: t).length := by
          simp [List.length_cons, Nat.pow_succ, Nat.mul_two]

theorem bitsToNat_testBit (s : List Bool) (j : Nat) :
    (bitsToNat s).testBit j
      = if j < s.length then s.getD (s.length - 1 - j) false else false := by
  induction s with
  | nil => simp [bitsToNat, Nat.zero_testBit]
  | cons b t ih =>
    rw [bitsToNat_cons]
    rcases Nat.lt_trichotomy j t.length with hj | hj | hj
    · have hLj : t.length - j + j = t.length := by omega
      have hsplit : (if b then 1 else 0) * 2 ^ t.length + bitsToNat t
          = bitsToNat t + ((if b then 1 else 0) * 2 ^ (t.length - j)) * 2 ^ j := by
        rw [Nat.mul_assoc, ← Nat.pow_add, hLj, Nat.add_comm]
      rw [hsplit, Nat.testBit_to_div_mod,
        Nat.add_mul_div_right _ _ (Nat.two_pow_pos j)]
      have heven : ((if b then 1 else 0) * 2 ^ (t.length - j)) % 2 = 0 := by
        have h1 : t.length - j = (t.length - j - 1) + 1 := by omega
        rw [h1, Nat.pow_succ, ← Nat.mul_assoc]
        exact Nat.mul_mod_left _ 2
      have hmod : (bitsToNat t / 2 ^ j + (if b then 1 else 0) * 2 ^ (t.length - j)) % 2
          = bitsToNat t / 2 ^ j % 2 := by omega
      rw [hmod, ← Nat.testBit_to_div_mod, ih]
      have h1 : j < t.length := hj
      have h2 : j < (b :: t).length := by simp only [List.length_cons]; omega
      rw [if_pos h1, if_pos h2]
      have hidx : (b :: t).length - 1 - j = ((t.length - 1 - j) + 1 : Nat) := by
        simp only [List.length_cons]; omega
      rw [hidx, List.getD_cons_succ]
    · subst hj
      have hlt : bitsToNat t < 2 ^ t.length := bitsToNat_lt t
      rw [Nat.testBit_to_div_mod, Nat.mul_comm, Nat.mul_add_div (Nat.two_pow_pos _),
        Nat.div_eq_of_lt hlt]
      have h2 : t.length < (b :: t).length := by simp
      rw [if_pos h2]
      have hidx : (b :: t).length - 1 - t.length = 0 := by
        simp only [List.length_cons]; omega
      rw [hidx]
      cases b <;> simp
    · have hbig : (if b then 1 else 0) * 2 ^ t.length + bitsToNat t < 2 ^ j := by
        have h1 := bitsToNat_lt (b :: t)
        rw [bitsToNat_cons] at h1
        simp only [List.length_cons] at h1
        have h2 : (2:Nat) ^ (t.length + 1) ≤ 2 ^ j :=
          Nat.pow_le_pow_right (by norm_num) (by omega)
        omega
      rw [Nat.testBit_lt_two_pow hbig,
        if_neg (by simp only [List.length_cons]; omega)]

theorem bitLenFuel_le (f : Nat) : ∀ n w : Nat, n ≤ f → n < 2 ^ w → bitLenFuel f n ≤ w := by
  induction f with
  | zero => intro n w _ _; simp [bitLenFuel]
  | succ f ih =>
    intro n w hn hw
    by_cases h0 : n = 0
    · simp [bitLenFuel, h0]
    · rw [bitLenFuel, if_neg h0]
      match w with
      | 0 => omega
      | w + 1 =>
        have hdiv : n / 2 < 2 ^ w := by
          rw [Nat.div_lt_iff_lt_mul (by norm_num)]
          calc n < 2 ^ (w + 1) := hw
            _ = 2 ^ w * 2 := by rw [Nat.pow_succ]
        have hle : n / 2 ≤ f := by omega
        exact Nat.succ_le_succ (ih (n / 2) w hle hdiv)

theorem lt_two_pow_bitLenFuel (f : Nat) : ∀ n : Nat, n ≤ f → n < 2 ^ bitLenFuel f n := by
  induction f with
  | zero => intro n hn; interval_cases n; simp [bitLenFuel]
  | succ f ih =>
    intro n hn
    by_cases h0 : n = 0
    · simp [bitLenFuel, h0]
    · rw [bitLenFuel, if_neg h0]
      have hle : n / 2 ≤ f := by omega
      have := ih (n / 2) hle
      have hmod := Nat.div_add_mod n 2
      have hm2 : n % 2 < 2 := Nat.mod_lt _ (by norm_num)
      rw [Nat.pow_succ]
      omega

theorem pyBitLen_le (num w : Nat) (hw : 1 ≤ w) (h : num < 2 ^ w) : pyBitLen num ≤ w := by
  unfold pyBitLen
  exact max_le hw (bitLenFuel_le num num w (le_refl num) h)

theorem lt_two_pow_pyBitLen (num : Nat) : num < 2 ^ pyBitLen num := by
  have h := lt_two_pow_bitLenFuel num num (le_refl num)
  exact Nat.lt_of_lt_of_le h
    (Nat.pow_le_pow_right (by norm_num) (le_max_right 1 (bitLenFuel num num)))

theorem length_pyFormatB (num : Nat) : (pyFormatB num).length = pyBitLen num := by
  simp [pyFormatB]

theorem getD_pyFormatB (num k : Nat) (hk : k < pyBitLen num) :
    (pyFormatB num).getD k false = num.testBit (pyBitLen num - 1 - k) := by
  rw [getD_eq_getElem _ _ k (by simp [length_pyFormatB, hk])]
  simp [pyFormatB]

theorem length_binary_repr (num w : Nat) (hw : 1 ≤ w) (h : num < 2 ^ w) :
    (binary_repr num w).length = w := by
  have hle : pyBitLen num ≤ w := pyBitLen_le num w hw h
  simp [binary_repr, length_pyFormatB]
  omega

theorem getD_binary_repr (num w : Nat) (hw : 1 ≤ w) (h : num < 2 ^ w)
    (k : Nat) (hk : k < w) :
    (binary_repr num w).getD k false = num.testBit (w - 1 - k) := by
  have hB := length_pyFormatB num
  have hle : pyBitLen num ≤ w := pyBitLen_le num w hw h
  unfold binary_repr
  by_cases hsplit : k < w - pyBitLen num
  · rw [getD_eq_getElem _ _ k (by simp [hB]; omega)]
    rw [List.getElem_append_left (by simp [hB]; omega)]
    have hfalse : num.testBit (w - 1 - k) = false := by
      apply Nat.testBit_lt_two_pow
      calc num < 2 ^ pyBitLen num := lt_two_pow_pyBitLen num
        _ ≤ 2 ^ (w - 1 - k) := Nat.pow_le_pow_right (by norm_num) (by omega)
    rw [hfalse]
    simp
  · have hge : w - pyBitLen num ≤ k := Nat.le_of_not_lt hsplit
    rw [getD_eq_getElem _ _ k (by simp [hB]; omega)]
    rw [List.getElem_append_right (by simp [hB]; omega)]
    have hidx : k - (List.replicate (w - (pyFormatB num).length) false).length
        = k - (w - pyBitLen num) := by simp [hB]
    have hk2 : k - (w - pyBitLen num) < pyBitLen num := by omega
    have := getD_pyFormatB num (k - (w - pyBitLen num)) hk2
    rw [getD_eq_getElem _ _ _ (by simp [hB]; omega)] at this
    simp only [hB] at *
    convert this using 2
    omega

/-! Characterization of the transpose codec: sliceStride picks the strided
characters, the transpose components are the strided bit values, and the
flattened column-major join reassembles the original bit string. -/

theorem getD_map_range {α : Type} (d : α) (f : Nat → α) (p j : Nat) (hj : j < p) :
    ((List.range p).map f).getD j d = f j := by
  rw [getD_eq_getElem _ _ j (by simp [hj])]
  simp

theorem getD_lt_of_forall (x : List Nat) (B i : Nat) (hB : 0 < B)
    (hx : ∀ v ∈ x, v < B) : x.getD i 0 < B := by
  by_cases h : i < x.length
  · rw [getD_eq_getElem x 0 i h]
    exact hx _ (List.getElem_mem h)
  · rw [getD_eq_default x 0 i (Nat.le_of_not_lt h)]
    exact hB

theorem filter_range_eq_single (m a : Nat) (q : Nat → Bool) (ha : a < m)
    (hq : ∀ r, r < m → (q r = true ↔ r = a)) :
    (List.range m).filter q = [a] := by
  induction m with
  | zero => omega
  | succ m ih =>
    rw [List.range_succ, List.filter_append]
    by_cases ham : a = m
    · subst ham
      have hnil : (List.range a).filter q = [] := by
        rw [List.filter_eq_nil_iff]
        intro r hr
        have hrm : r < a := List.mem_range.mp hr
        intro hqr
        have := (hq r (by omega)).mp hqr
        omega
      have hqa : q a = true := (hq a (by omega)).mpr rfl
      rw [hnil]
      simp [hqa]
    · have ha2 : a < m := by omega
      have hqm : q m = false := by
        by_contra hc
        have := (hq m (by omega)).mp (by revert hc; cases q m <;> simp)
        omega
      rw [ih ha2 (fun r hr => hq r (by omega))]
      simp [hqm]

theorem stride_pred_iff (n i p r : Nat) (hi : i < n) (hr : r < n) :
    ((fun k => i ≤ k && (k - i) % n == 0) (p * n + r) = true) ↔ r = i := by
  simp only [Bool.and_eq_true, decide_eq_true_eq, beq_iff_eq]
  constructor
  · rintro ⟨hle, hmod⟩
    by_cases hri : i ≤ r
    · have hsub : p * n + r - i = (r - i) + p * n := by omega
      rw [hsub, Nat.add_mul_mod_self_right, Nat.mod_eq_of_lt (by omega)] at hmod
      omega
    · exfalso
      rcases Nat.eq_zero_or_pos p with hp0 | hp0
      · subst hp0; simp at hle; omega
      · have hexp : p * n = n + (p - 1) * n := by
          have hp1 : p = 1 + (p - 1) := by omega
          rw [hp1, Nat.add_mul, Nat.one_mul]
          have : 1 + (p - 1) - 1 = p - 1 := by omega
          rw [this]
        have hsub : p * n + r - i = (n + r - i) + (p - 1) * n := by omega
        rw [hsub, Nat.add_mul_mod_self_right, Nat.mod_eq_of_lt (by omega)] at hmod
        omega
  · intro hr2
    subst hr2
    refine ⟨by omega, ?_⟩
    have : p * n + r - r = p * n := by omega
    rw [this, Nat.mul_mod_left]

theorem filter_range_stride (n i : Nat) (hi : i < n) : ∀ p : Nat,
    (List.range (p * n)).filter (fun k => i ≤ k && (k - i) % n == 0)
      = (List.range p).map (fun j => i + j * n) := by
  intro p
  induction p with
  | zero => simp
  | succ p ih =>
    have hmul : (p + 1) * n = p * n + n := by ring
    rw [hmul, List.range_add, List.filter_append, ih]
    have hblock : ((List.range n).map (fun r => p * n + r)).filter
        (fun k => i ≤ k && (k - i) % n == 0) = [p * n + i] := by
      rw [List.filter_map]
      have hsingle : (List.range n).filter
          ((fun k => i ≤ k && (k - i) % n == 0) ∘ (fun r => p * n + r)) = [i] := by
        apply filter_range_eq_single n i _ hi
        intro r hr
        exact stride_pred_iff n i p r hi hr
      rw [hsingle]
      rfl
    rw [hblock, List.range_succ, List.map_append]
    simp [Nat.add_comm]

theorem sliceStride_eq (s : List Bool) (i n : Nat) (hi : i < n) (p : Nat)
    (hlen : s.length = p * n) :
    sliceStride s i n = (List.range p).map (fun j => s.getD (i + j * n) false) := by
  unfold sliceStride
  rw [hlen, filter_range_stride n i hi p, List.map_map]
  rfl

theorem length_transpose (p n h : Nat) : (hilbert_integer_to_transpose p n h).length = n := by
  simp [hilbert_integer_to_transpose]

theorem transpose_getD_eq (p n h : Nat) (hp : 1 ≤ p) (hn : 1 ≤ n) (hh : h < 2 ^ (p * n))
    (i : Nat) (hi : i < n) :
    (hilbert_integer_to_transpose p n h).getD i 0
      = bitsToNat ((List.range p).map (fun j => (binary_repr h (p * n)).getD (i + j * n) false)) := by
  unfold hilbert_integer_to_transpose
  rw [getD_map_range _ _ n i hi]
  have hpn : 1 ≤ p * n := Nat.mul_le_mul hp hn
  rw [sliceStride_eq _ i n hi p (length_binary_repr h (p * n) hpn hh)]

theorem transpose_comp_lt (p n h : Nat) (hp : 1 ≤ p) (hn : 1 ≤ n) (hh : h < 2 ^ (p * n)) :
    ∀ i : Nat, (hilbert_integer_to_transpose p n h).getD i 0 < 2 ^ p := by
  intro i
  by_cases hi : i < n
  · rw [transpose_getD_eq p n h hp hn hh i hi]
    have := bitsToNat_lt ((List.range p).map
      (fun j => (binary_repr h (p * n)).getD (i + j * n) false))
    simpa using this
  · rw [getD_eq_default _ _ i (by rw [length_transpose]; omega)]
    exact Nat.two_pow_pos p

theorem transpose_testBit (p n h : Nat) (hp : 1 ≤ p) (hn : 1 ≤ n) (hh : h < 2 ^ (p * n))
    (i : Nat) (hi : i < n) (j : Nat) :
    ((hilbert_integer_to_transpose p n h).getD i 0).testBit j
      = if j < p then h.testBit (j * n + (n - 1 - i)) else false := by
  rw [transpose_getD_eq p n h hp hn hh i hi, bitsToNat_testBit]
  have hlenmap : ((List.range p).map
      (fun j => (binary_repr h (p * n)).getD (i + j * n) false)).length = p := by simp
  rw [hlenmap]
  by_cases hj : j < p
  · rw [if_pos hj, if_pos hj, getD_map_range _ _ p (p - 1 - j) (by omega)]
    have hpn : 1 ≤ p * n := Nat.mul_le_mul hp hn
    have hexp1 : p * n = (p - 1 - j) * n + (j * n + n) := by
      have hcomb : (p - 1 - j) + (j + 1) = p := by omega
      calc p * n = ((p - 1 - j) + (j + 1)) * n := by rw [hcomb]
        _ = (p - 1 - j) * n + (j + 1) * n := by rw [Nat.add_mul]
        _ = (p - 1 - j) * n + (j * n + n) := by rw [Nat.succ_mul]
    have hidx : i + (p - 1 - j) * n < p * n := by omega
    rw [getD_binary_repr h (p * n) hpn hh _ hidx]
    congr 1
    omega
  · rw [if_neg hj, if_neg hj]

theorem flatten_uniform_length {α : Type} (n : Nat) :
    ∀ L : List (List α), (∀ l ∈ L, l.length = n) →
      (List.flatten L).length = L.length * n := by
  intro L
  induction L with
  | nil => intro _; simp
  | cons l t ih =>
    intro hall
    rw [List.flatten_cons, List.length_append, hall l (List.mem_cons_self l t),
      ih (fun l2 h2 => hall l2 (List.mem_cons_of_mem l h2))]
    simp [List.length_cons, Nat.succ_mul, Nat.add_comm]

theorem getD_append_left {α : Type} (d : α) (l l2 : List α) (k : Nat) (hk : k < l.length) :
    (l ++ l2).getD k d = l.getD k d := by
  rw [getD_eq_getElem _ _ k (by simp; omega), getD_eq_getElem _ _ k hk]
  exact List.getElem_append_left hk

theorem getD_append_right {α : Type} (d : α) (l l2 : List α) (k : Nat) (hk : l.length ≤ k) :
    (l ++ l2).getD k d = l2.getD (k - l.length) d := by
  by_cases h2 : k - l.length < l2.length
  · rw [getD_eq_getElem _ _ k (by simp; omega), getD_eq_getElem _ _ _ h2]
    rw [List.getElem_append_right hk]
  · rw [getD_eq_default _ _ k (by simp; omega), getD_eq_default _ _ _ (by omega)]

theorem flatten_uniform_getD {α : Type} (d : α) (n : Nat) :
    ∀ (L : List (List α)) (i m : Nat), (∀ l ∈ L, l.length = n) →
      i < L.length → m < n →
      (List.flatten L).getD (i * n + m) d = (L.getD i []).getD m d := by
  intro L
  induction L with
  | nil => intro i m _ hi _; simp at hi
  | cons l t ih =>
    intro i m hall hi hm
    have hl : l.length = n := hall l (List.mem_cons_self l t)
    rw [List.flatten_cons]
    match i with
    | 0 =>
      rw [Nat.zero_mul, Nat.zero_add, getD_append_left d l _ m (by omega)]
      rfl
    | i + 1 =>
      have hidx : (i + 1) * n + m = l.length + (i * n + m) := by
        rw [hl, Nat.succ_mul]; omega
      rw [hidx, getD_append_right d l _ _ (by omega)]
      have hsub : l.length + (i * n + m) - l.length = i * n + m := by omega
      rw [hsub, List.getD_cons_succ]
      exact ih i m (fun l2 h2 => hall l2 (List.mem_cons_of_mem l h2))
        (by simpa using hi) hm

theorem untranspose_lt (p n : Nat) (x : List Nat) :
    transpose_to_hilbert_integer p n x < 2 ^ (p * n) := by
  unfold transpose_to_hilbert_integer
  have hlen : (List.flatten ((List.range p).map (fun i =>
      (List.range n).map (fun m => (binary_repr (x.getD m 0) p).getD i false)))).length
      = p * n := by
    rw [flatten_uniform_length n _ (by intro l hl; rcases List.mem_map.mp hl with ⟨a, _, rfl⟩; simp)]
    simp
  rw [← hlen]
  exact bitsToNat_lt _

theorem untranspose_testBit (p n : Nat) (x : List Nat) (hp : 1 ≤ p) (hn : 1 ≤ n)
    (hx : ∀ i : Nat, x.getD i 0 < 2 ^ p) (b : Nat) (hb : b < p * n) :
    (transpose_to_hilbert_integer p n x).testBit b
      = (x.getD (n - 1 - b % n) 0).testBit (b / n) := by
  have hjq : b / n < p := by
    rw [Nat.div_lt_iff_lt_mul (by omega)]
    omega
  have hjr : b % n < n := Nat.mod_lt b (by omega)
  have hbdecomp : b = (b / n) * n + b % n := by
    rw [Nat.mul_comm]
    exact (Nat.div_add_mod b n).symm
  obtain ⟨jq, jr, hgq, hgr⟩ : ∃ jq jr : Nat, b / n = jq ∧ b % n = jr := ⟨_, _, rfl, rfl⟩
  rw [hgq, hgr]
  rw [hgq] at hjq hbdecomp
  rw [hgr] at hjr hbdecomp
  unfold transpose_to_hilbert_integer
  set L := (List.range p).map (fun i =>
    (List.range n).map (fun m => (binary_repr (x.getD m 0) p).getD i false)) with hL
  have hall : ∀ l ∈ L, l.length = n := by
    intro l hl; rcases List.mem_map.mp hl with ⟨a, _, rfl⟩; simp
  have hlen : (List.flatten L).length = p * n := by
    rw [flatten_uniform_length n L hall]; simp [hL]
  rw [bitsToNat_testBit, hlen, if_pos hb]
  have hexp1 : p * n = (p - 1 - jq) * n + (jq * n + n) := by
    have hcomb : (p - 1 - jq) + (jq + 1) = p := by omega
    calc p * n = ((p - 1 - jq) + (jq + 1)) * n := by rw [hcomb]
      _ = (p - 1 - jq) * n + (jq + 1) * n := by rw [Nat.add_mul]
      _ = (p - 1 - jq) * n + (jq * n + n) := by rw [Nat.succ_mul]
  have hidx : p * n - 1 - b = (p - 1 - jq) * n + (n - 1 - jr) := by omega
  rw [hidx, flatten_uniform_getD false n L _ _ hall (by simp [hL]; omega) (by omega)]
  have hgetL : L.getD (p - 1 - jq) []
      = (List.range n).map (fun m => (binary_repr (x.getD m 0) p).getD (p - 1 - jq) false) := by
    rw [hL, getD_map_range _ _ p _ (by omega)]
  rw [hgetL, getD_map_range _ _ n _ (by omega)]
  rw [getD_binary_repr _ p hp (hx _) _ (by omega)]
  congr 1
  omega

/-! The two codec operations are exact mutual inverses on in-range inputs
(the content of claim C4, and of the known vector claim C9). -/

theorem transpose_untranspose (p n h : Nat) (hp : 1 ≤ p) (hn : 1 ≤ n)
    (hh : h < 2 ^ (p * n)) :
    transpose_to_hilbert_integer p n (hilbert_integer_to_transpose p n h) = h := by
  apply Nat.eq_of_testBit_eq
  intro j
  by_cases hj : j < p * n
  · rw [untranspose_testBit p n _ hp hn (transpose_comp_lt p n h hp hn hh) j hj]
    have hjr : j % n < n := Nat.mod_lt j (by omega)
    have hjq : j / n < p := by
      rw [Nat.div_lt_iff_lt_mul (by omega)]; omega
    rw [transpose_testBit p n h hp hn hh _ (by omega) _, if_pos hjq]
    have hni : n - 1 - (n - 1 - j % n) = j % n := by omega
    rw [hni]
    congr 1
    rw [Nat.mul_comm]
    exact Nat.div_add_mod j n
  · rw [Nat.testBit_lt_two_pow (Nat.lt_of_lt_of_le (untranspose_lt p n _)
      (Nat.pow_le_pow_right (by norm_num) (by omega))),
      Nat.testBit_lt_two_pow (Nat.lt_of_lt_of_le hh
      (Nat.pow_le_pow_right (by norm_num) (by omega)))]

theorem untranspose_transpose (p n : Nat) (x : List Nat) (hp : 1 ≤ p) (hn : 1 ≤ n)
    (hlen : x.length = n) (hx : ∀ i : Nat, x.getD i 0 < 2 ^ p) :
    hilbert_integer_to_transpose p n (transpose_to_hilbert_integer p n x) = x := by
  have hh : transpose_to_hilbert_integer p n x < 2 ^ (p * n) := untranspose_lt p n x
  apply List.ext_getElem (by rw [length_transpose, hlen])
  intro i hi1 hi2
  have hi : i < n := by rw [length_transpose] at hi1; exact hi1
  rw [← getD_eq_getElem _ 0 i hi1, ← getD_eq_getElem _ 0 i hi2]
  apply Nat.eq_of_testBit_eq
  intro j
  rw [transpose_testBit p n _ hp hn hh i hi j]
  by_cases hj : j < p
  · rw [if_pos hj]
    have hbi : j * n + (n - 1 - i) < p * n := by
      have hexp1 : p * n = j * n + ((p - 1 - j) * n + n) := by
        have hcomb : j + ((p - 1 - j) + 1) = p := by omega
        calc p * n = (j + ((p - 1 - j) + 1)) * n := by rw [hcomb]
          _ = j * n + ((p - 1 - j) + 1) * n := by rw [Nat.add_mul]
          _ = j * n + ((p - 1 - j) * n + n) := by rw [Nat.succ_mul]
      omega
    rw [untranspose_testBit p n x hp hn hx _ hbi]
    have hmod : (j * n + (n - 1 - i)) % n = n - 1 - i := by
      rw [Nat.add_comm, Nat.add_mul_mod_self_right]
      exact Nat.mod_eq_of_lt (by omega)
    have hdiv : (j * n + (n - 1 - i)) / n = j := by
      rw [Nat.mul_comm, Nat.mul_add_div (by omega), Nat.div_eq_of_lt (by omega)]
      rfl
    rw [hmod, hdiv]
    congr 2
    omega
  · rw [if_neg hj]
    exact (Nat.testBit_lt_two_pow (Nat.lt_of_lt_of_le (hx i)
      (Nat.pow_le_pow_right (by norm_num) (by omega)))).symm

/-! The invert/exchange step is an involution, so the enc pass (ascending i)
and the dec pass (descending i) at the same q are mutual inverses, and so
are the two while loops (ascending vs descending q). -/

theorem xor_cancel_right (a t : Nat) : a ^^^ t ^^^ t = a := by
  rw [Nat.xor_assoc, Nat.xor_self, Nat.xor_zero]

theorem xor_xor_pair (a b t : Nat) : (a ^^^ t) ^^^ (b ^^^ t) = a ^^^ b := by
  rw [Nat.xor_assoc, Nat.xor_comm b t, ← Nat.xor_assoc t t b, Nat.xor_self, Nat.zero_xor]

theorem and_two_pow_xor_low (s y w : Nat) :
    (y ^^^ (w &&& (2 ^ (s + 1) - 1))) &&& 2 ^ (s + 1) = y &&& 2 ^ (s + 1) := by
  apply Nat.eq_of_testBit_eq
  intro k
  simp only [Nat.testBit_and, Nat.testBit_xor, Nat.testBit_two_pow,
    Nat.testBit_two_pow_sub_one]
  by_cases hk : s + 1 = k
  · subst hk
    simp
  · simp [hk]

theorem and_two_pow_xor_mask (s y : Nat) :
    (y ^^^ (2 ^ (s + 1) - 1)) &&& 2 ^ (s + 1) = y &&& 2 ^ (s + 1) := by
  apply Nat.eq_of_testBit_eq
  intro k
  simp only [Nat.testBit_and, Nat.testBit_xor, Nat.testBit_two_pow,
    Nat.testBit_two_pow_sub_one]
  by_cases hk : s + 1 = k
  · subst hk
    simp
  · simp [hk]

theorem length_undoStep (q : Nat) (x : List Nat) (i : Nat) :
    (undoStep q x i).length = x.length := by
  unfold undoStep
  split
  · simp
  · simp

theorem undoStep_involution (s q : Nat) (hq : q = 2 ^ (s + 1)) (x : List Nat) (i : Nat)
    (hi : i < x.length) : undoStep q (undoStep q x i) i = x := by
  have h0 : 0 < x.length := by omega
  by_cases hc : (x.getD i 0) &&& q ≠ 0
  · -- invert branch
    have hstep : undoStep q x i = x.set 0 ((x.getD 0 0) ^^^ (q - 1)) := by
      unfold undoStep
      rw [if_pos hc]
    rw [hstep]
    have hgi : (x.set 0 ((x.getD 0 0) ^^^ (q - 1))).getD i 0 &&& q ≠ 0 := by
      by_cases hi0 : i = 0
      · subst hi0
        rw [getD_set_self _ _ _ h0, hq, and_two_pow_xor_mask s]
        rw [hq] at hc
        exact hc
      · rw [getD_set_ne _ _ _ _ (fun h => hi0 h.symm)]
        exact hc
    unfold undoStep
    rw [if_pos hgi, getD_set_self _ _ _ h0, xor_cancel_right, List.set_set,
      set_getD_self _ _ h0]
  · -- exchange branch
    have hstep : undoStep q x i
        = (x.set 0 ((x.getD 0 0) ^^^ (((x.getD 0 0) ^^^ (x.getD i 0)) &&& (q - 1)))).set i
          (((x.set 0 ((x.getD 0 0) ^^^ (((x.getD 0 0) ^^^ (x.getD i 0)) &&& (q - 1)))).getD i 0)
            ^^^ (((x.getD 0 0) ^^^ (x.getD i 0)) &&& (q - 1))) := by
      unfold undoStep
      rw [if_neg hc]
    by_cases hi0 : i = 0
    · subst hi0
      have ht0 : ((x.getD 0 0) ^^^ (x.getD 0 0)) &&& (q - 1) = 0 := by
        rw [Nat.xor_self, Nat.zero_and]
      have hid : undoStep q x 0 = x := by
        rw [hstep, ht0, Nat.xor_zero, getD_set_self _ _ _ h0, Nat.xor_zero,
          List.set_set, set_getD_self _ _ h0]
      rw [hid, hid]
    · have hne0i : (0 : Nat) ≠ i := fun h => hi0 h.symm
      set t := ((x.getD 0 0) ^^^ (x.getD i 0)) &&& (q - 1) with hT
      have hy : undoStep q x i
          = (x.set 0 ((x.getD 0 0) ^^^ t)).set i ((x.getD i 0) ^^^ t) := by
        rw [hstep, getD_set_ne _ _ _ _ hne0i]
      set y := (x.set 0 ((x.getD 0 0) ^^^ t)).set i ((x.getD i 0) ^^^ t) with hY
      have hleny : y.length = x.length := by rw [hY]; simp
      have hgety0 : y.getD 0 0 = (x.getD 0 0) ^^^ t := by
        rw [hY, getD_set_ne _ _ _ _ hi0, getD_set_self _ _ _ h0]
      have hgetyi : y.getD i 0 = (x.getD i 0) ^^^ t := by
        rw [hY, getD_set_self]
        simp [hi]
      have hcond2 : ¬ (y.getD i 0 &&& q ≠ 0) := by
        rw [hgetyi, hT, Nat.xor_comm (x.getD 0 0) (x.getD i 0), hq, and_two_pow_xor_low s]
        rw [hq] at hc
        simpa using hc
      have ht2 : ((y.getD 0 0) ^^^ (y.getD i 0)) &&& (q - 1) = t := by
        rw [hgety0, hgetyi, xor_xor_pair]
      have hstep2 : undoStep q y i
          = (y.set 0 ((y.getD 0 0) ^^^ t)).set i
            (((y.set 0 ((y.getD 0 0) ^^^ t)).getD i 0) ^^^ t) := by
        unfold undoStep
        rw [if_neg hcond2, ht2]
      rw [hy, hstep2, getD_set_ne _ _ _ _ hne0i, hgety0, hgetyi,
        xor_cancel_right, xor_cancel_right]
      rw [hY, List.set_comm _ _ _ hne0i, List.set_set, List.set_comm _ _ _ hi0,
        List.set_set, set_getD_self _ _ h0, set_getD_self _ _ hi]

theorem length_undoPassDec (q n : Nat) (x : List Nat) :
    (undoPassDec q n x).length = x.length := by
  unfold undoPassDec
  exact foldl_invariant (undoStep q) (fun l => l.length = x.length) _ x
    (fun a _ c hc => by
      show (undoStep q c a).length = x.length
      rw [length_undoStep]; exact hc) rfl

theorem length_undoPassEnc (q n : Nat) (x : List Nat) :
    (undoPassEnc q n x).length = x.length := by
  unfold undoPassEnc
  exact foldl_invariant (undoStep q) (fun l => l.length = x.length) _ x
    (fun a _ c hc => by
      show (undoStep q c a).length = x.length
      rw [length_undoStep]; exact hc) rfl

theorem undoPass_enc_dec (s q n : Nat) (hq : q = 2 ^ (s + 1)) (x : List Nat)
    (hlen : n ≤ x.length) : undoPassEnc q n (undoPassDec q n x) = x := by
  unfold undoPassEnc undoPassDec
  have h := foldl_cancel (undoStep q) (undoStep q) (fun l => l.length = x.length)
    ((List.range n).reverse) x
    (fun a _ c hc => by
      show (undoStep q c a).length = x.length
      rw [length_undoStep]; exact hc)
    (fun a ha c hc => undoStep_involution s q hq c a
      (by rw [hc]; exact Nat.lt_of_lt_of_le (List.mem_range.mp (List.mem_reverse.mp ha)) hlen))
    rfl
  rwa [List.reverse_reverse] at h

theorem undoPass_dec_enc (s q n : Nat) (hq : q = 2 ^ (s + 1)) (x : List Nat)
    (hlen : n ≤ x.length) : undoPassDec q n (undoPassEnc q n x) = x := by
  unfold undoPassEnc undoPassDec
  exact foldl_cancel (undoStep q) (undoStep q) (fun l => l.length = x.length)
    (List.range n) x
    (fun a _ c hc => by
      show (undoStep q c a).length = x.length
      rw [length_undoStep]; exact hc)
    (fun a ha c hc => undoStep_involution s q hq c a
      (by rw [hc]; exact Nat.lt_of_lt_of_le (List.mem_range.mp ha) hlen))
    rfl

theorem length_undoLoopDec (p n : Nat) (x : List Nat) :
    (undoLoopDec p n x).length = x.length := by
  unfold undoLoopDec
  exact foldl_invariant _ (fun l => l.length = x.length) _ x
    (fun a _ c hc => by
      show (undoPassDec (2 ^ (a + 1)) n c).length = x.length
      rw [length_undoPassDec]; exact hc) rfl

theorem length_undoLoopEnc (p n : Nat) (x : List Nat) :
    (undoLoopEnc p n x).length = x.length := by
  unfold undoLoopEnc
  exact foldl_invariant _ (fun l => l.length = x.length) _ x
    (fun a _ c hc => by
      show (undoPassEnc (2 ^ (a + 1)) n c).length = x.length
      rw [length_undoPassEnc]; exact hc) rfl

theorem undoLoop_enc_dec (p n : Nat) (x : List Nat) (hlen : n ≤ x.length) :
    undoLoopEnc p n (undoLoopDec p n x) = x := by
  unfold undoLoopEnc undoLoopDec
  exact foldl_cancel (fun y k => undoPassDec (2 ^ (k + 1)) n y)
    (fun y k => undoPassEnc (2 ^ (k + 1)) n y) (fun l => l.length = x.length)
    (List.range (p - 1)) x
    (fun a _ c hc => by
      show (undoPassDec (2 ^ (a + 1)) n c).length = x.length
      rw [length_undoPassDec]; exact hc)
    (fun a _ c hc => undoPass_enc_dec a (2 ^ (a + 1)) n rfl c (by omega))
    rfl

theorem undoLoop_dec_enc (p n : Nat) (x : List Nat) (hlen : n ≤ x.length) :
    undoLoopDec p n (undoLoopEnc p n x) = x := by
  unfold undoLoopEnc undoLoopDec
  have h := foldl_cancel (fun y k => undoPassEnc (2 ^ (k + 1)) n y)
    (fun y k => undoPassDec (2 ^ (k + 1)) n y) (fun l => l.length = x.length)
    ((List.range (p - 1)).reverse) x
    (fun a _ c hc => by
      show (undoPassEnc (2 ^ (a + 1)) n c).length = x.length
      rw [length_undoPassEnc]; exact hc)
    (fun a _ c hc => undoPass_dec_enc a (2 ^ (a + 1)) n rfl c (by omega))
    rfl
  rwa [List.reverse_reverse] at h

/-! Range preservation: every component stays below 2^p through the
invert/exchange steps, the Gray loops, and the final XOR loop. -/

theorem xor_lt_two_pow (p a b : Nat) (ha : a < 2 ^ p) (hb : b < 2 ^ p) :
    a ^^^ b < 2 ^ p := by
  apply Nat.lt_pow_two_of_testBit
  intro i hi
  rw [Nat.testBit_xor,
    Nat.testBit_lt_two_pow (Nat.lt_of_lt_of_le ha (Nat.pow_le_pow_right (by norm_num) hi)),
    Nat.testBit_lt_two_pow (Nat.lt_of_lt_of_le hb (Nat.pow_le_pow_right (by norm_num) hi))]
  rfl

theorem forall_lt_set (x : List Nat) (i v B : Nat) (hv : v < B)
    (hx : ∀ w ∈ x, w < B) : ∀ w ∈ x.set i v, w < B := by
  intro w hw
  rcases List.mem_or_eq_of_mem_set hw with h | h
  · exact hx w h
  · rw [h]; exact hv

theorem undoStep_comp_lt (p s q : Nat) (hq : q = 2 ^ (s + 1)) (hsp : s + 1 ≤ p)
    (x : List Nat) (i : Nat) (hx : ∀ w ∈ x, w < 2 ^ p) :
    ∀ w ∈ undoStep q x i, w < 2 ^ p := by
  have hq1 : q - 1 < 2 ^ p := by
    rw [hq]
    have : (2:Nat) ^ (s + 1) ≤ 2 ^ p := Nat.pow_le_pow_right (by norm_num) hsp
    have := Nat.two_pow_pos (s + 1)
    omega
  have hx0 : x.getD 0 0 < 2 ^ p := getD_lt_of_forall x _ 0 (Nat.two_pow_pos p) hx
  have hxi : x.getD i 0 < 2 ^ p := getD_lt_of_forall x _ i (Nat.two_pow_pos p) hx
  unfold undoStep
  split
  · exact forall_lt_set x _ _ _ (xor_lt_two_pow p _ _ hx0 hq1) hx
  · have ht : ((x.getD 0 0) ^^^ (x.getD i 0)) &&& (q - 1) < 2 ^ p :=
      Nat.lt_of_le_of_lt Nat.and_le_right hq1
    have h1 : ∀ w ∈ x.set 0 ((x.getD 0 0) ^^^ (((x.getD 0 0) ^^^ (x.getD i 0)) &&& (q - 1))),
        w < 2 ^ p :=
      forall_lt_set x _ _ _ (xor_lt_two_pow p _ _ hx0 ht) hx
    exact forall_lt_set _ _ _ _
      (xor_lt_two_pow p _ _ (getD_lt_of_forall _ _ i (Nat.two_pow_pos p) h1) ht) h1

theorem undoPassDec_comp_lt (p s q n : Nat) (hq : q = 2 ^ (s + 1)) (hsp : s + 1 ≤ p)
    (x : List Nat) (hx : ∀ w ∈ x, w < 2 ^ p) : ∀ w ∈ undoPassDec q n x, w < 2 ^ p := by
  unfold undoPassDec
  exact foldl_invariant (undoStep q) (fun l => ∀ w ∈ l, w < 2 ^ p) _ x
    (fun a _ c hc => undoStep_comp_lt p s q hq hsp c a hc) hx

theorem undoPassEnc_comp_lt (p s q n : Nat) (hq : q = 2 ^ (s + 1)) (hsp : s + 1 ≤ p)
    (x : List Nat) (hx : ∀ w ∈ x, w < 2 ^ p) : ∀ w ∈ undoPassEnc q n x, w < 2 ^ p := by
  unfold undoPassEnc
  exact foldl_invariant (undoStep q) (fun l => ∀ w ∈ l, w < 2 ^ p) _ x
    (fun a _ c hc => undoStep_comp_lt p s q hq hsp c a hc) hx

theorem undoLoopDec_comp_lt (p n : Nat) (x : List Nat) (hx : ∀ w ∈ x, w < 2 ^ p) :
    ∀ w ∈ undoLoopDec p n x, w < 2 ^ p := by
  unfold undoLoopDec
  exact foldl_invariant _ (fun l => ∀ w ∈ l, w < 2 ^ p) _ x
    (fun a ha c hc => undoPassDec_comp_lt p a (2 ^ (a + 1)) n rfl
      (by have := List.mem_range.mp ha; omega) c hc) hx

theorem undoLoopEnc_comp_lt (p n : Nat) (x : List Nat) (hx : ∀ w ∈ x, w < 2 ^ p) :
    ∀ w ∈ undoLoopEnc p n x, w < 2 ^ p := by
  unfold undoLoopEnc
  exact foldl_invariant _ (fun l => ∀ w ∈ l, w < 2 ^ p) _ x
    (fun a ha c hc => undoPassEnc_comp_lt p a (2 ^ (a + 1)) n rfl
      (by have := List.mem_range.mp (List.mem_reverse.mp ha); omega) c hc) hx

/-! Pointwise characterization of the two Gray code loops and the final
XOR loop: the encode loop computes prefix XORs, the decode loop computes
adjacent differences, and each is the inverse of the other. -/

theorem length_grayStep (x : List Nat) (j : Nat) : (grayStep x j).length = x.length := by
  simp [grayStep]

theorem grayStep_involution (x : List Nat) (j : Nat) : grayStep (grayStep x j) j = x := by
  by_cases hj : j + 1 < x.length
  · unfold grayStep
    rw [getD_set_self _ _ _ hj, getD_set_ne _ _ _ _ (by omega), xor_cancel_right,
      List.set_set, set_getD_self _ _ hj]
  · have h1 : grayStep x j = x := by
      unfold grayStep
      exact List.set_eq_of_length_le (by omega)
    rw [h1, h1]

theorem grayStep_getD_self (x : List Nat) (j : Nat) (h : j + 1 < x.length) :
    (grayStep x j).getD (j + 1) 0 = x.getD (j + 1) 0 ^^^ x.getD j 0 := by
  unfold grayStep
  rw [getD_set_self _ _ _ h]

theorem grayStep_getD_ne (x : List Nat) (j i : Nat) (h : j + 1 ≠ i) :
    (grayStep x j).getD i 0 = x.getD i 0 := by
  unfold grayStep
  rw [getD_set_ne _ _ _ _ h]

theorem grayEnc_aux_unfold (k : Nat) (y : List Nat) :
    (List.range (k + 1)).foldl grayStep y
      = grayStep ((List.range k).foldl grayStep y) k := by
  rw [List.range_succ, List.foldl_append]
  rfl

theorem grayEnc_aux_length (k : Nat) (y : List Nat) :
    ((List.range k).foldl grayStep y).length = y.length :=
  foldl_invariant grayStep (fun l => l.length = y.length) _ y
    (fun a _ c hc => by
      show (grayStep c a).length = y.length
      rw [length_grayStep]; exact hc) rfl

theorem grayEnc_aux_getD_zero (k : Nat) (y : List Nat) :
    ((List.range k).foldl grayStep y).getD 0 0 = y.getD 0 0 := by
  induction k with
  | zero => rfl
  | succ k ih =>
    rw [grayEnc_aux_unfold, grayStep_getD_ne _ _ _ (by omega)]
    exact ih

theorem grayEnc_aux_getD_high (k : Nat) (y : List Nat) (i : Nat) (hi : k < i) :
    ((List.range k).foldl grayStep y).getD i 0 = y.getD i 0 := by
  induction k generalizing i with
  | zero => rfl
  | succ k ih =>
    rw [grayEnc_aux_unfold, grayStep_getD_ne _ _ _ (by omega)]
    exact ih i (by omega)

theorem grayEnc_aux_getD_rec (k : Nat) (y : List Nat) (j : Nat) (hj : j < k)
    (hlen : j + 1 < y.length) :
    ((List.range k).foldl grayStep y).getD (j + 1) 0
      = ((List.range k).foldl grayStep y).getD j 0 ^^^ y.getD (j + 1) 0 := by
  induction k with
  | zero => omega
  | succ k ih =>
    rw [grayEnc_aux_unfold]
    by_cases hjk : j < k
    · rw [grayStep_getD_ne _ _ _ (by omega), grayStep_getD_ne _ _ _ (by omega)]
      exact ih hjk
    · have hjeq : j = k := by omega
      subst hjeq
      rw [grayStep_getD_self _ _ (by rw [grayEnc_aux_length]; exact hlen),
        grayStep_getD_ne _ _ _ (by omega), grayEnc_aux_getD_high j y (j + 1) (by omega),
        Nat.xor_comm]

theorem grayDec_aux_peel (k : Nat) (x : List Nat) :
    ((List.range (k + 1)).reverse).foldl grayStep x
      = ((List.range k).reverse).foldl grayStep (grayStep x k) := by
  rw [List.range_succ, List.reverse_append]
  rfl

theorem grayDec_aux_length (k : Nat) (x : List Nat) :
    (((List.range k).reverse).foldl grayStep x).length = x.length :=
  foldl_invariant grayStep (fun l => l.length = x.length) _ x
    (fun a _ c hc => by
      show (grayStep c a).length = x.length
      rw [length_grayStep]; exact hc) rfl

theorem grayDec_aux_getD (k : Nat) (x : List Nat) (i : Nat) :
    (((List.range k).reverse).foldl grayStep x).getD i 0
      = if 1 ≤ i ∧ i ≤ k ∧ i < x.length then x.getD i 0 ^^^ x.getD (i - 1) 0
        else x.getD i 0 := by
  induction k generalizing x with
  | zero =>
    have : ¬ (1 ≤ i ∧ i ≤ 0 ∧ i < x.length) := by omega
    rw [if_neg this]
    rfl
  | succ k ih =>
    rw [grayDec_aux_peel, ih (grayStep x k)]
    have hlen : (grayStep x k).length = x.length := length_grayStep x k
    by_cases hik : 1 ≤ i ∧ i ≤ k ∧ i < x.length
    · rw [if_pos (by omega : 1 ≤ i ∧ i ≤ k ∧ i < (grayStep x k).length),
        grayStep_getD_ne _ _ _ (by omega), grayStep_getD_ne _ _ _ (by omega),
        if_pos (by omega : 1 ≤ i ∧ i ≤ k + 1 ∧ i < x.length)]
    · rw [if_neg (by omega : ¬ (1 ≤ i ∧ i ≤ k ∧ i < (grayStep x k).length))]
      by_cases hik2 : i = k + 1 ∧ i < x.length
      · obtain ⟨hik2a, hik2b⟩ := hik2
        subst hik2a
        rw [grayStep_getD_self _ _ hik2b,
          if_pos (by omega : 1 ≤ k + 1 ∧ k + 1 ≤ k + 1 ∧ k + 1 < x.length)]
        have hsub : k + 1 - 1 = k := by omega
        rw [hsub]
      · have hnot : ¬ (1 ≤ i ∧ i ≤ k + 1 ∧ i < x.length) := by omega
        rw [if_neg hnot]
        by_cases hilen : i < x.length
        · rw [grayStep_getD_ne _ _ _ (by omega)]
        · rw [getD_eq_default _ _ i (by rw [length_grayStep]; omega),
            getD_eq_default _ _ i (by omega)]

theorem length_xorLoop (n t : Nat) (x : List Nat) : (xorLoop n t x).length = x.length := by
  unfold xorLoop
  exact foldl_invariant _ (fun l => l.length = x.length) _ x
    (fun a _ c hc => by
      show (c.set a ((c.getD a 0) ^^^ t)).length = x.length
      rw [List.length_set]; exact hc) rfl

theorem xorLoop_unfold (n t : Nat) (x : List Nat) :
    xorLoop (n + 1) t x = (xorLoop n t x).set n (((xorLoop n t x).getD n 0) ^^^ t) := by
  unfold xorLoop
  rw [List.range_succ, List.foldl_append]
  rfl

theorem xorLoop_getD (n t : Nat) (x : List Nat) (i : Nat) :
    (xorLoop n t x).getD i 0
      = if i < n ∧ i < x.length then x.getD i 0 ^^^ t else x.getD i 0 := by
  induction n with
  | zero =>
    rw [if_neg (by omega)]
    rfl
  | succ n ih =>
    rw [xorLoop_unfold]
    by_cases hin : i = n
    · subst hin
      by_cases hlen : i < x.length
      · rw [getD_set_self _ _ _ (by rw [length_xorLoop]; exact hlen), ih,
          if_neg (by omega), if_pos (by omega)]
      · rw [List.set_eq_of_length_le (by rw [length_xorLoop]; omega), ih,
          if_neg (by omega), if_neg (by omega)]
    · rw [getD_set_ne _ _ _ _ (fun h => hin h.symm), ih]
      by_cases h1 : i < n ∧ i < x.length
      · rw [if_pos h1, if_pos (by omega)]
      · rw [if_neg h1, if_neg (by omega)]

/-! The t accumulated by distance_from_point at component n-1 undoes the
t = x[n-1] >> 1 used by point_from_distance: tAccum p (w XOR (w >> 1)) is
exactly w >> 1 for w < 2^p, and conversely (w XOR tAccum p w) >> 1 recovers
tAccum p w. -/

theorem and_two_pow_ne_zero_iff (w k : Nat) : (w &&& 2 ^ k ≠ 0) ↔ w.testBit k = true := by
  rw [Nat.and_two_pow]
  cases h : w.testBit k
  · simp
  · simpa using (Nat.two_pow_pos k).ne'

theorem shiftRight_one_xor (a b : Nat) : (a ^^^ b) >>> 1 = (a >>> 1) ^^^ (b >>> 1) := by
  apply Nat.eq_of_testBit_eq
  intro k
  simp [Nat.testBit_shiftRight, Nat.testBit_xor]

theorem two_pow_succ_shiftRight (m : Nat) : (2 ^ (m + 1)) >>> 1 = 2 ^ m := by
  apply Nat.eq_of_testBit_eq
  intro k
  simp only [Nat.testBit_shiftRight, Nat.testBit_two_pow, decide_eq_decide]
  omega

theorem xor_swap_middle (a b c d : Nat) :
    (a ^^^ b) ^^^ (c ^^^ d) = (a ^^^ c) ^^^ (b ^^^ d) := by
  apply Nat.eq_of_testBit_eq
  intro i
  simp only [Nat.testBit_xor]
  cases a.testBit i <;> cases b.testBit i <;> cases c.testBit i <;> cases d.testBit i <;> rfl

theorem and_two_pow_xor_two_pow_ne (w j k : Nat) (hjk : j ≠ k) :
    (w ^^^ 2 ^ j) &&& 2 ^ k = w &&& 2 ^ k := by
  apply Nat.eq_of_testBit_eq
  intro i
  simp only [Nat.testBit_and, Nat.testBit_xor, Nat.testBit_two_pow]
  by_cases hik : k = i
  · subst hik
    have hji : decide (j = k) = false := by simp [hjk]
    rw [hji]
    simp
  · simp [hik]

theorem two_pow_sub_one_xor (m : Nat) : (2 ^ (m + 1) - 1) ^^^ (2 ^ m - 1) = 2 ^ m := by
  apply Nat.eq_of_testBit_eq
  intro i
  simp only [Nat.testBit_xor, Nat.testBit_two_pow_sub_one, Nat.testBit_two_pow]
  rcases Nat.lt_trichotomy i m with h | h | h
  · have e1 : decide (i < m + 1) = true := by simp; omega
    have e2 : decide (i < m) = true := by simp [h]
    have e3 : decide (m = i) = false := by simp; omega
    rw [e1, e2, e3]
    rfl
  · subst h
    have e1 : decide (i < i + 1) = true := by simp
    have e2 : decide (i < i) = false := by simp
    have e3 : decide (i = i) = true := by simp
    rw [e1, e2, e3]
    rfl
  · have e1 : decide (i < m + 1) = false := by simp; omega
    have e2 : decide (i < m) = false := by simp; omega
    have e3 : decide (m = i) = false := by simp; omega
    rw [e1, e2, e3]
    rfl

theorem foldl_xor_hom (f : Nat → Nat → Nat)
    (hf : ∀ a b k, f (a ^^^ b) k = a ^^^ f b k) (l : List Nat) :
    ∀ a b : Nat, l.foldl f (a ^^^ b) = a ^^^ l.foldl f b := by
  induction l with
  | nil => intro a b; rfl
  | cons k rest ih =>
    intro a b
    show rest.foldl f (f (a ^^^ b) k) = a ^^^ rest.foldl f (f b k)
    rw [hf a b k, ih a (f b k)]

theorem tAccum_step_hom (w a b k : Nat) :
    (if w &&& 2 ^ (k + 1) ≠ 0 then (a ^^^ b) ^^^ (2 ^ (k + 1) - 1) else (a ^^^ b))
      = a ^^^ (if w &&& 2 ^ (k + 1) ≠ 0 then b ^^^ (2 ^ (k + 1) - 1) else b) := by
  by_cases hc : w &&& 2 ^ (k + 1) ≠ 0
  · rw [if_pos hc, if_pos hc, Nat.xor_assoc]
  · rw [if_neg hc, if_neg hc]

theorem tAccum_succ (m w : Nat) :
    tAccum (m + 2) w
      = (if w &&& 2 ^ (m + 1) ≠ 0 then 2 ^ (m + 1) - 1 else 0) ^^^ tAccum (m + 1) w := by
  unfold tAccum
  show ((List.range (m + 1)).reverse).foldl _ 0 = _
  rw [List.range_succ, List.reverse_append, List.reverse_singleton, List.singleton_append]
  show ((List.range m).reverse).foldl _
    (if w &&& 2 ^ (m + 1) ≠ 0 then 0 ^^^ (2 ^ (m + 1) - 1) else 0) = _
  have h0 : (if w &&& 2 ^ (m + 1) ≠ 0 then 0 ^^^ (2 ^ (m + 1) - 1) else (0 : Nat))
      = (if w &&& 2 ^ (m + 1) ≠ 0 then 2 ^ (m + 1) - 1 else 0) ^^^ 0 := by
    by_cases hc : w &&& 2 ^ (m + 1) ≠ 0
    · rw [if_pos hc, if_pos hc, Nat.zero_xor, Nat.xor_zero]
    · rw [if_neg hc, if_neg hc, Nat.xor_zero]
  rw [h0, foldl_xor_hom _ (fun a b k => tAccum_step_hom w a b k) _ _ 0]
  rfl

theorem tAccum_xor_high (p : Nat) : ∀ w j : Nat, p ≤ j →
    tAccum p (w ^^^ 2 ^ j) = tAccum p w := by
  induction p with
  | zero => intro w j _; rfl
  | succ pp ih =>
    intro w j hj
    match pp, ih, hj with
    | 0, _, _ => rfl
    | m + 1, ih, hj =>
      rw [tAccum_succ, tAccum_succ, ih w j (by omega),
        and_two_pow_xor_two_pow_ne w j (m + 1) (by omega)]

theorem tAccum_xor_flip (p : Nat) : ∀ w k : Nat, 1 ≤ k → k ≤ p - 1 →
    tAccum p (w ^^^ 2 ^ k) = tAccum p w ^^^ (2 ^ k - 1) := by
  induction p with
  | zero => intro w k hk1 hk2; omega
  | succ pp ih =>
    intro w k hk1 hk2
    match pp, ih, hk2 with
    | 0, _, hk2 => omega
    | m + 1, ih, hk2 =>
      rw [tAccum_succ, tAccum_succ]
      by_cases hkm : k = m + 1
      · subst hkm
        rw [tAccum_xor_high (m + 1) w (m + 1) (le_refl _)]
        have hflip : ((w ^^^ 2 ^ (m + 1)) &&& 2 ^ (m + 1) ≠ 0)
            ↔ ¬ (w &&& 2 ^ (m + 1) ≠ 0) := by
          rw [and_two_pow_ne_zero_iff, and_two_pow_ne_zero_iff]
          simp [Nat.testBit_xor, Nat.testBit_two_pow]
        by_cases hc : w &&& 2 ^ (m + 1) ≠ 0
        · have hc2 : ¬ ((w ^^^ 2 ^ (m + 1)) &&& 2 ^ (m + 1) ≠ 0) :=
            fun ha => (hflip.mp ha) hc
          rw [if_neg hc2, if_pos hc, Nat.zero_xor,
            Nat.xor_comm (2 ^ (m + 1) - 1) (tAccum (m + 1) w), xor_cancel_right]
        · have hc2 : (w ^^^ 2 ^ (m + 1)) &&& 2 ^ (m + 1) ≠ 0 := hflip.mpr hc
          rw [if_pos hc2, if_neg hc, Nat.zero_xor]
          exact Nat.xor_comm _ _
      · rw [and_two_pow_xor_two_pow_ne w k (m + 1) hkm, ih w k hk1 (by omega),
          Nat.xor_assoc]

theorem tAccum_lt (p w : Nat) : tAccum p w < 2 ^ p := by
  unfold tAccum
  apply foldl_invariant _ (fun t => t < 2 ^ p) _ 0 ?_ (Nat.two_pow_pos p)
  intro a ha c hc
  show (if w &&& 2 ^ (a + 1) ≠ 0 then c ^^^ (2 ^ (a + 1) - 1) else c) < 2 ^ p
  by_cases hcond : w &&& 2 ^ (a + 1) ≠ 0
  · rw [if_pos hcond]
    have hap : a < p - 1 := List.mem_range.mp (List.mem_reverse.mp ha)
    have hmask : 2 ^ (a + 1) - 1 < 2 ^ p := by
      have h1 : (2:Nat) ^ (a + 1) ≤ 2 ^ p := Nat.pow_le_pow_right (by norm_num) (by omega)
      have h2 := Nat.two_pow_pos (a + 1)
      omega
    exact xor_lt_two_pow p _ _ hc hmask
  · rw [if_neg hcond]
    exact hc

theorem tAccum_gray (p : Nat) : ∀ w : Nat, w < 2 ^ p →
    tAccum p (w ^^^ (w >>> 1)) = w >>> 1 := by
  induction p with
  | zero =>
    intro w hw
    have hw0 : w = 0 := by omega
    subst hw0
    rfl
  | succ pp ih =>
    intro w hw
    match pp, ih, hw with
    | 0, _, hw =>
      have hw2 : w < 2 := hw
      interval_cases w <;> decide
    | m + 1, ih, hw =>
      rcases Nat.eq_zero_or_pos m with hm0 | hm1
      · subst hm0
        have hw4 : w < 4 := hw
        interval_cases w <;> decide
      · have hble : w < 2 ^ (m + 2) := hw
        have hb : (w ^^^ (w >>> 1)).testBit (m + 1) = w.testBit (m + 1) := by
          rw [Nat.testBit_xor, Nat.testBit_shiftRight]
          have hfalse : w.testBit (1 + (m + 1)) = false :=
            Nat.testBit_lt_two_pow (Nat.lt_of_lt_of_le hble
              (Nat.pow_le_pow_right (by norm_num) (by omega : m + 2 ≤ 1 + (m + 1))))
          rw [hfalse]
          simp
        rw [tAccum_succ]
        by_cases hbit : w.testBit (m + 1) = true
        · -- high bit set: flip it off, recurse on v
          have hvlt : w ^^^ 2 ^ (m + 1) < 2 ^ (m + 1) := by
            apply Nat.lt_pow_two_of_testBit
            intro i hi
            rw [Nat.testBit_xor, Nat.testBit_two_pow]
            by_cases him : i = m + 1
            · subst him
              rw [hbit]
              simp
            · rw [Nat.testBit_lt_two_pow
                (Nat.lt_of_lt_of_le hble (Nat.pow_le_pow_right (by norm_num) (by omega)))]
              have : decide (m + 1 = i) = false := by simp; omega
              rw [this]
              rfl
          have hwv : w = (w ^^^ 2 ^ (m + 1)) ^^^ 2 ^ (m + 1) := (xor_cancel_right _ _).symm
          have hshift : w >>> 1 = ((w ^^^ 2 ^ (m + 1)) >>> 1) ^^^ 2 ^ m := by
            conv_lhs => rw [hwv]
            rw [shiftRight_one_xor, two_pow_succ_shiftRight]
          have hgray : (((w ^^^ 2 ^ (m + 1)) ^^^ ((w ^^^ 2 ^ (m + 1)) >>> 1)) ^^^ 2 ^ m)
                ^^^ 2 ^ (m + 1) = w ^^^ (w >>> 1) := by
            rw [Nat.xor_assoc (w ^^^ 2 ^ (m + 1)) _ (2 ^ m), ← hshift,
              Nat.xor_assoc, Nat.xor_comm (w >>> 1) (2 ^ (m + 1)), ← Nat.xor_assoc,
              xor_cancel_right]
          have hcond : (w ^^^ (w >>> 1)) &&& 2 ^ (m + 1) ≠ 0 := by
            rw [and_two_pow_ne_zero_iff, hb]
            exact hbit
          rw [if_pos hcond, ← hgray, tAccum_xor_high (m + 1) _ (m + 1) (le_refl _),
            tAccum_xor_flip (m + 1) _ m hm1 (by omega),
            ih (w ^^^ 2 ^ (m + 1)) hvlt, hshift]
          rw [← Nat.xor_assoc, Nat.xor_comm (2 ^ (m + 1) - 1) ((w ^^^ 2 ^ (m + 1)) >>> 1),
            Nat.xor_assoc, two_pow_sub_one_xor]
        · -- high bit clear: w already fits in m+1 bits
          have hw1 : w < 2 ^ (m + 1) := by
            apply Nat.lt_pow_two_of_testBit
            intro i hi
            by_cases him : i = m + 1
            · subst him
              simpa using hbit
            · exact Nat.testBit_lt_two_pow
                (Nat.lt_of_lt_of_le hble (Nat.pow_le_pow_right (by norm_num) (by omega)))
          have hcond : ¬ ((w ^^^ (w >>> 1)) &&& 2 ^ (m + 1) ≠ 0) := by
            rw [and_two_pow_ne_zero_iff, hb]
            exact hbit
          rw [if_neg hcond, ih w hw1, Nat.zero_xor]

theorem shiftRight_one_fixed_eq_zero (a : Nat) (h : a = a >>> 1) : a = 0 := by
  rw [Nat.shiftRight_eq_div_pow, Nat.pow_one] at h
  omega

theorem gray_injective (u v : Nat) (h : u ^^^ (u >>> 1) = v ^^^ (v >>> 1)) : u = v := by
  have hz : (u ^^^ v) ^^^ ((u >>> 1) ^^^ (v >>> 1)) = 0 := by
    rw [xor_swap_middle, h, Nat.xor_self]
  have h2 : u ^^^ v = (u ^^^ v) >>> 1 := by
    rw [shiftRight_one_xor]
    exact Nat.xor_eq_zero.mp hz
  exact Nat.xor_eq_zero.mp (shiftRight_one_fixed_eq_zero _ h2)

theorem shiftRight_one_le (w : Nat) : w >>> 1 ≤ w := by
  rw [Nat.shiftRight_eq_div_pow, Nat.pow_one]
  exact Nat.div_le_self w 2

theorem gray_surjective (p w : Nat) (hw : w < 2 ^ p) :
    ∃ u : Nat, u < 2 ^ p ∧ u ^^^ (u >>> 1) = w := by
  have hsurj := Finset.surj_on_of_inj_on_of_card_le
    (s := Finset.range (2 ^ p)) (t := Finset.range (2 ^ p))
    (fun a _ => a ^^^ (a >>> 1))
    (fun a ha => by
      have ha2 : a < 2 ^ p := Finset.mem_range.mp ha
      exact Finset.mem_range.mpr (xor_lt_two_pow p _ _ ha2
        (Nat.lt_of_le_of_lt (shiftRight_one_le a) ha2)))
    (fun a1 a2 _ _ heq => gray_injective a1 a2 heq)
    (le_refl _)
  obtain ⟨u, hu, hueq⟩ := hsurj w (Finset.mem_range.mpr hw)
  exact ⟨u, Finset.mem_range.mp hu, hueq.symm⟩

theorem tAccum_inv (p w : Nat) (hw : w < 2 ^ p) :
    (w ^^^ tAccum p w) >>> 1 = tAccum p w := by
  obtain ⟨u, hu, hgu⟩ := gray_surjective p w hw
  have h1 : tAccum p w = u >>> 1 := by
    rw [← hgu]
    exact tAccum_gray p u hu
  rw [h1, ← hgu, Nat.xor_assoc, Nat.xor_self, Nat.xor_zero]

/-! Assembly: gray_encode inverts gray_decode and vice versa, hence the two
public transforms are mutual inverses on their valid domains. -/

theorem xor_shuffle1 (a t c : Nat) : (a ^^^ t) ^^^ (c ^^^ a) = c ^^^ t := by
  apply Nat.eq_of_testBit_eq
  intro i
  simp only [Nat.testBit_xor]
  cases a.testBit i <;> cases t.testBit i <;> cases c.testBit i <;> rfl

theorem forall_mem_of_getD (x : List Nat) (B : Nat) (h : ∀ i : Nat, x.getD i 0 < B) :
    ∀ v ∈ x, v < B := by
  intro v hv
  obtain ⟨i, hi, hveq⟩ := List.mem_iff_getElem.mp hv
  rw [← hveq, ← getD_eq_getElem x 0 i hi]
  exact h i

theorem list_eq_of_getD (x y : List Nat) (hlen : x.length = y.length)
    (h : ∀ i : Nat, i < x.length → x.getD i 0 = y.getD i 0) : x = y := by
  apply List.ext_getElem hlen
  intro i h1 h2
  rw [← getD_eq_getElem x 0 i h1, ← getD_eq_getElem y 0 i h2]
  exact h i h1

theorem grayStep_comp_lt (p : Nat) (c : List Nat) (a : Nat)
    (hc : ∀ i : Nat, c.getD i 0 < 2 ^ p) : ∀ i : Nat, (grayStep c a).getD i 0 < 2 ^ p := by
  intro i
  by_cases hia : a + 1 = i
  · subst hia
    by_cases hlen2 : a + 1 < c.length
    · rw [grayStep_getD_self _ _ hlen2]
      exact xor_lt_two_pow p _ _ (hc _) (hc _)
    · unfold grayStep
      rw [List.set_eq_of_length_le (by omega)]
      exact hc _
  · rw [grayStep_getD_ne _ _ _ hia]
    exact hc i

theorem grayEncodeLoop_comp_lt (p n : Nat) (y : List Nat)
    (hy : ∀ i : Nat, y.getD i 0 < 2 ^ p) :
    ∀ i : Nat, (grayEncodeLoop n y).getD i 0 < 2 ^ p := by
  unfold grayEncodeLoop
  exact foldl_invariant grayStep (fun l => ∀ i : Nat, l.getD i 0 < 2 ^ p) _ y
    (fun a _ c hc => grayStep_comp_lt p c a hc) hy

theorem grayLoop_dec_enc (n : Nat) (a : List Nat) :
    grayDecodeLoop n (grayEncodeLoop n a) = a := by
  unfold grayDecodeLoop grayEncodeLoop
  exact foldl_cancel grayStep grayStep (fun _ => True) (List.range (n - 1)) a
    (fun _ _ _ _ => trivial) (fun j _ c _ => grayStep_involution c j) trivial

theorem gray_encode_gray_decode (p n : Nat) (hn : 1 ≤ n) (x : List Nat)
    (hlen : x.length = n) (hx : ∀ i : Nat, x.getD i 0 < 2 ^ p) :
    gray_encode p n (gray_decode p n x) = x := by
  unfold gray_encode gray_decode
  set t := (x.getD (n - 1) 0) >>> 1 with hT
  set x1 := grayDecodeLoop n x with hX1
  set x2 := x1.set 0 ((x1.getD 0 0) ^^^ t) with hX2
  have hlen1 : x1.length = n := by rw [hX1]; unfold grayDecodeLoop; rw [grayDec_aux_length, hlen]
  have hlen2 : x2.length = n := by rw [hX2]; simp [hlen1]
  have hundo : undoLoopEnc p n (undoLoopDec p n x2) = x2 :=
    undoLoop_enc_dec p n x2 (by omega)
  rw [hundo]
  show xorLoop n (tAccum p ((grayEncodeLoop n x2).getD (n - 1) 0)) (grayEncodeLoop n x2) = x
  set b := grayEncodeLoop n x2 with hB
  have hlenb : b.length = n := by rw [hB]; unfold grayEncodeLoop; rw [grayEnc_aux_length, hlen2]
  -- x2.getD: index 0 is x[0] xor t, index i in [1, n-1] is x[i] xor x[i-1]
  have hx2get0 : x2.getD 0 0 = x.getD 0 0 ^^^ t := by
    rw [hX2, getD_set_self _ _ _ (by omega), hX1]
    unfold grayDecodeLoop
    rw [grayDec_aux_getD, if_neg (by omega)]
  have hx2geti : ∀ i : Nat, 1 ≤ i → i ≤ n - 1 →
      x2.getD i 0 = x.getD i 0 ^^^ x.getD (i - 1) 0 := by
    intro i hi1 hi2
    rw [hX2, getD_set_ne _ _ _ _ (by omega), hX1]
    unfold grayDecodeLoop
    rw [grayDec_aux_getD, if_pos (by omega)]
  -- the prefix XOR loop rebuilds x[i] xor t at every index below n
  have hbget : ∀ i : Nat, i < n → b.getD i 0 = x.getD i 0 ^^^ t := by
    intro i
    induction i with
    | zero =>
      intro _
      rw [hB]
      unfold grayEncodeLoop
      rw [grayEnc_aux_getD_zero, hx2get0]
    | succ i ih =>
      intro hi
      rw [hB]
      unfold grayEncodeLoop
      rw [grayEnc_aux_getD_rec (n - 1) x2 i (by omega) (by omega)]
      have hrec : (List.foldl grayStep x2 (List.range (n - 1))).getD i 0
          = x.getD i 0 ^^^ t := by
        have := ih (by omega)
        rw [hB] at this
        exact this
      rw [hrec, hx2geti (i + 1) (by omega) (by omega)]
      have hidx : i + 1 - 1 = i := by omega
      rw [hidx, xor_shuffle1]
  -- the accumulated t equals the original t
  have htacc : tAccum p (b.getD (n - 1) 0) = t := by
    rw [hbget (n - 1) (by omega), hT]
    exact tAccum_gray p (x.getD (n - 1) 0) (hx (n - 1))
  rw [htacc]
  -- the final XOR loop cancels t componentwise
  apply list_eq_of_getD
  · rw [length_xorLoop, hlenb, hlen]
  · intro i hi
    rw [length_xorLoop, hlenb] at hi
    rw [xorLoop_getD, if_pos (by omega), hbget i hi, xor_cancel_right]

theorem length_gray_encode (p n : Nat) (pt : List Nat) :
    (gray_encode p n pt).length = pt.length := by
  unfold gray_encode
  rw [length_xorLoop]
  unfold grayEncodeLoop
  rw [grayEnc_aux_length, length_undoLoopEnc]

theorem gray_encode_comp_lt (p n : Nat) (pt : List Nat)
    (hpt : ∀ i : Nat, pt.getD i 0 < 2 ^ p) :
    ∀ i : Nat, (gray_encode p n pt).getD i 0 < 2 ^ p := by
  have hcompa : ∀ i : Nat, (undoLoopEnc p n pt).getD i 0 < 2 ^ p := by
    intro i
    apply getD_lt_of_forall _ _ _ (Nat.two_pow_pos p)
    exact undoLoopEnc_comp_lt p n pt (forall_mem_of_getD pt _ hpt)
  have hcompb : ∀ i : Nat, (grayEncodeLoop n (undoLoopEnc p n pt)).getD i 0 < 2 ^ p :=
    grayEncodeLoop_comp_lt p n _ hcompa
  intro i
  unfold gray_encode
  rw [xorLoop_getD]
  by_cases hcond : i < n ∧ i < (grayEncodeLoop n (undoLoopEnc p n pt)).length
  · rw [if_pos hcond]
    exact xor_lt_two_pow p _ _ (hcompb i) (tAccum_lt p _)
  · rw [if_neg hcond]
    exact hcompb i

theorem gray_decode_gray_encode (p n : Nat) (hn : 1 ≤ n) (pt : List Nat)
    (hlen : pt.length = n) (hpt : ∀ i : Nat, pt.getD i 0 < 2 ^ p) :
    gray_decode p n (gray_encode p n pt) = pt := by
  unfold gray_encode gray_decode
  set a := undoLoopEnc p n pt with hA
  have hlena : a.length = n := by rw [hA, length_undoLoopEnc, hlen]
  have hcompa : ∀ i : Nat, a.getD i 0 < 2 ^ p := by
    intro i
    apply getD_lt_of_forall _ _ _ (Nat.two_pow_pos p)
    rw [hA]
    exact undoLoopEnc_comp_lt p n pt (forall_mem_of_getD pt _ hpt)
  set b := grayEncodeLoop n a with hB
  have hlenb : b.length = n := by
    rw [hB]
    unfold grayEncodeLoop
    rw [grayEnc_aux_length, hlena]
  have hcompb : ∀ i : Nat, b.getD i 0 < 2 ^ p := by
    rw [hB]
    exact grayEncodeLoop_comp_lt p n a hcompa
  set tp := tAccum p (b.getD (n - 1) 0) with hTP
  set c := xorLoop n tp b with hC
  have hlenc : c.length = n := by rw [hC, length_xorLoop, hlenb]
  have hcget : ∀ i : Nat, i < n → c.getD i 0 = b.getD i 0 ^^^ tp := by
    intro i hi
    rw [hC, xorLoop_getD, if_pos (by omega)]
  have ht2 : c.getD (n - 1) 0 >>> 1 = tp := by
    rw [hcget (n - 1) (by omega), hTP]
    exact tAccum_inv p (b.getD (n - 1) 0) (hcompb (n - 1))
  have hlendc : (grayDecodeLoop n c).length = n := by
    unfold grayDecodeLoop
    rw [grayDec_aux_length, hlenc]
  have he : (grayDecodeLoop n c).set 0 (((grayDecodeLoop n c).getD 0 0)
      ^^^ ((c.getD (n - 1) 0) >>> 1)) = grayDecodeLoop n b := by
    apply list_eq_of_getD
    · rw [List.length_set, hlendc]
      unfold grayDecodeLoop
      rw [grayDec_aux_length, hlenb]
    · intro i hi
      rw [List.length_set, hlendc] at hi
      by_cases hi0 : i = 0
      · subst hi0
        rw [getD_set_self _ _ _ (by omega), ht2]
        have hdc0 : (grayDecodeLoop n c).getD 0 0 = c.getD 0 0 := by
          unfold grayDecodeLoop
          rw [grayDec_aux_getD, if_neg (by omega)]
        have hdb0 : (grayDecodeLoop n b).getD 0 0 = b.getD 0 0 := by
          unfold grayDecodeLoop
          rw [grayDec_aux_getD, if_neg (by omega)]
        rw [hdc0, hdb0, hcget 0 (by omega), xor_cancel_right]
      · rw [getD_set_ne _ _ _ _ (fun hcontra => hi0 hcontra.symm)]
        have hdci : (grayDecodeLoop n c).getD i 0 = c.getD i 0 ^^^ c.getD (i - 1) 0 := by
          unfold grayDecodeLoop
          rw [grayDec_aux_getD, if_pos (by omega)]
        have hdbi : (grayDecodeLoop n b).getD i 0 = b.getD i 0 ^^^ b.getD (i - 1) 0 := by
          unfold grayDecodeLoop
          rw [grayDec_aux_getD, if_pos (by omega)]
        rw [hdci, hdbi, hcget i (by omega), hcget (i - 1) (by omega), xor_xor_pair]
  show undoLoopDec p n ((grayDecodeLoop n c).set 0
    (((grayDecodeLoop n c).getD 0 0) ^^^ ((c.getD (n - 1) 0) >>> 1))) = pt
  rw [he, hB, grayLoop_dec_enc, hA]
  exact undoLoop_dec_enc p n pt (by omega)

/-! The two public single-item transforms are mutual inverses on their
valid domains (claim C1), and their outputs respect the derived bounds
(claim C10). -/

theorem distance_point_roundtrip (p n h : Nat) (hp : 1 ≤ p) (hn : 1 ≤ n)
    (hh : h < 2 ^ (p * n)) :
    distance_from_point p n (point_from_distance p n h) = h := by
  unfold distance_from_point point_from_distance
  rw [gray_encode_gray_decode p n hn _ (length_transpose p n h)
    (transpose_comp_lt p n h hp hn hh)]
  exact transpose_untranspose p n h hp hn hh

theorem point_distance_roundtrip (p n : Nat) (pt : List Nat) (hp : 1 ≤ p) (hn : 1 ≤ n)
    (hlen : pt.length = n) (hpt : ∀ i : Nat, pt.getD i 0 < 2 ^ p) :
    point_from_distance p n (distance_from_point p n pt) = pt := by
  unfold point_from_distance distance_from_point
  rw [show hilbert_integer_to_transpose p n
      (transpose_to_hilbert_integer p n (gray_encode p n pt)) = gray_encode p n pt from
    untranspose_transpose p n _ hp hn (by rw [length_gray_encode, hlen])
      (gray_encode_comp_lt p n pt hpt)]
  exact gray_decode_gray_encode p n hn pt hlen hpt

theorem length_gray_decode (p n : Nat) (x : List Nat) :
    (gray_decode p n x).length = x.length := by
  unfold gray_decode
  rw [length_undoLoopDec, List.length_set]
  unfold grayDecodeLoop
  rw [grayDec_aux_length]

theorem gray_decode_comp_lt (p n : Nat) (x : List Nat)
    (hx : ∀ i : Nat, x.getD i 0 < 2 ^ p) :
    ∀ v ∈ gray_decode p n x, v < 2 ^ p := by
  unfold gray_decode
  apply undoLoopDec_comp_lt
  apply forall_mem_of_getD
  intro i
  have hdec : ∀ j : Nat, (grayDecodeLoop n x).getD j 0 < 2 ^ p := by
    intro j
    unfold grayDecodeLoop
    exact foldl_invariant grayStep (fun l => ∀ i2 : Nat, l.getD i2 0 < 2 ^ p) _ x
      (fun a _ c hc => grayStep_comp_lt p c a hc) hx j
  by_cases hi0 : i = 0
  · subst hi0
    by_cases h0 : 0 < (grayDecodeLoop n x).length
    · rw [getD_set_self _ _ _ h0]
      apply xor_lt_two_pow p _ _ (hdec 0)
      exact Nat.lt_of_le_of_lt (shiftRight_one_le _) (hx (n - 1))
    · rw [List.set_eq_of_length_le (by omega)]
      exact hdec 0
  · rw [getD_set_ne _ _ _ _ (fun hcontra => hi0 hcontra.symm)]
    exact hdec i

/-! Validation layer: characterization of the per-item checks, of the
first-failure loop, and of the constructor. -/

theorem rat_floor_eq_floor (x : ℚ) : Rat.floor x = ⌊x⌋ := rfl

theorem pyMod1_eq_zero_iff (q : ℚ) : pyMod1 q = 0 ↔ ∃ z : ℤ, q = (z : ℚ) := by
  unfold pyMod1
  rw [rat_floor_eq_floor]
  constructor
  · intro h
    refine ⟨⌊q⌋, ?_⟩
    have : q - (⌊q⌋ : ℚ) = 0 := h
    linarith
  · rintro ⟨z, rfl⟩
    rw [Int.floor_intCast]
    ring

theorem length_point_from_distance (p n h : Nat) :
    (point_from_distance p n h).length = n := by
  unfold point_from_distance
  rw [length_gray_decode, length_transpose]

theorem checkDistance_none_iff (p n : Nat) (d : ℚ) :
    checkDistance p n d = none
      ↔ pyMod1 d = 0 ∧ d ≤ ((2 ^ (p * n) - 1 : Nat) : ℚ) ∧ 0 ≤ d := by
  unfold checkDistance
  by_cases h1 : pyMod1 d ≠ 0
  · rw [if_pos h1]
    simp [h1]
  · rw [if_neg h1]
    rw [not_not] at h1
    by_cases h2 : d > ((2 ^ (p * n) - 1 : Nat) : ℚ)
    · rw [if_pos h2]
      constructor
      · intro hcontra
        exact Option.noConfusion hcontra
      · rintro ⟨_, hle, _⟩
        exact absurd hle (not_le.mpr h2)
    · rw [if_neg h2]
      by_cases h3 : d < 0
      · rw [if_pos h3]
        constructor
        · intro hcontra
          exact Option.noConfusion hcontra
        · rintro ⟨_, _, hge⟩
          exact absurd hge (not_le.mpr h3)
      · rw [if_neg h3]
        constructor
        · intro _
          exact ⟨h1, not_lt.mp h2, not_lt.mp h3⟩
        · intro _
          rfl

theorem checkPoint_none_iff (p n : Nat) (pt : List ℚ) :
    checkPoint p n pt = none
      ↔ pt.length = n
        ∧ ∀ e ∈ pt, e ≤ ((2 ^ p - 1 : Nat) : ℚ) ∧ 0 ≤ e ∧ pyMod1 e = 0 := by
  unfold checkPoint
  by_cases h1 : pt.length ≠ n
  · rw [if_pos h1]
    simp [h1]
  · rw [if_neg h1]
    rw [not_not] at h1
    by_cases h2 : pt.any (fun e => decide (e > ((2 ^ p - 1 : Nat) : ℚ)))
    · rw [if_pos h2]
      rw [List.any_eq_true] at h2
      obtain ⟨e, he, he2⟩ := h2
      simp only [decide_eq_true_eq] at he2
      constructor
      · intro hcontra
        exact absurd hcontra (by simp)
      · rintro ⟨_, hall⟩
        exact absurd (hall e he).1 (not_le.mpr he2)
    · rw [if_neg h2]
      by_cases h3 : pt.any (fun e => decide (e < 0))
      · rw [if_pos h3]
        rw [List.any_eq_true] at h3
        obtain ⟨e, he, he2⟩ := h3
        simp only [decide_eq_true_eq] at he2
        constructor
        · intro hcontra
          exact absurd hcontra (by simp)
        · rintro ⟨_, hall⟩
          exact absurd (hall e he).2.1 (not_le.mpr he2)
      · rw [if_neg h3]
        by_cases h4 : pt.any (fun e => decide (pyMod1 e ≠ 0))
        · rw [if_pos h4]
          rw [List.any_eq_true] at h4
          obtain ⟨e, he, he2⟩ := h4
          simp only [decide_eq_true_eq] at he2
          constructor
          · intro hcontra
            exact absurd hcontra (by simp)
          · rintro ⟨_, hall⟩
            exact absurd (hall e he).2.2 he2
        · rw [if_neg h4]
          simp only [List.any_eq_true, decide_eq_true_eq] at h2 h3 h4
          push_neg at h2 h3 h4
          constructor
          · intro _
            exact ⟨h1, fun e he => ⟨h2 e he, h3 e he, h4 e he⟩⟩
          · intro _
            rfl

theorem firstFailure_none_iff {α : Type} (f : α → Option BatchKind) :
    ∀ (l : List α) (i : Nat), firstFailure f i l = none ↔ ∀ a ∈ l, f a = none := by
  intro l
  induction l with
  | nil => intro i; simp [firstFailure]
  | cons a t ih =>
    intro i
    unfold firstFailure
    cases hfa : f a with
    | some k => simp [hfa]
    | none => simp [hfa, ih (i + 1)]

theorem firstFailure_at {α : Type} (f : α → Option BatchKind) (d : α) :
    ∀ (l : List α) (j i : Nat) (k : BatchKind), j < l.length →
      (∀ i2 : Nat, i2 < j → f (l.getD i2 d) = none) →
      f (l.getD j d) = some k →
      firstFailure f i l = some ⟨i + j, k⟩ := by
  intro l
  induction l with
  | nil => intro j i k hj; simp at hj
  | cons a t ih =>
    intro j i k hj hprev hjk
    match j, hj, hprev, hjk with
    | 0, _, _, hjk =>
      have hfa : f a = some k := by simpa using hjk
      unfold firstFailure
      rw [hfa]
      rfl
    | j2 + 1, hj, hprev, hjk =>
      have hfa : f a = none := by simpa using hprev 0 (by omega)
      unfold firstFailure
      rw [hfa]
      have hrec := ih j2 (i + 1) k (by simpa using hj)
        (fun i2 hi2 => by simpa using hprev (i2 + 1) (by omega))
        (by simpa using hjk)
      have harith : i + 1 + j2 = i + (j2 + 1) := by omega
      rw [harith] at hrec
      exact hrec

/-! Heap lemmas: the in-place work of distance_from_point touches only the
freshly allocated copy, never the caller object. -/

theorem hupd_apply_ne (σ : Heap) (a r : Nat) (v : List Nat) (h : r ≠ a) :
    hupd σ a v r = σ r := by
  unfold hupd
  rw [if_neg h]

theorem hupd_apply_eq (σ : Heap) (a : Nat) (v : List Nat) : hupd σ a v a = v := by
  unfold hupd
  rw [if_pos rfl]

theorem mutateAt_apply_ne (σ : Heap) (a r : Nat) (f : List Nat → List Nat) (h : r ≠ a) :
    mutateAt σ a f r = σ r :=
  hupd_apply_ne σ a r _ h

theorem mutateAt_apply_eq (σ : Heap) (a : Nat) (f : List Nat → List Nat) :
    mutateAt σ a f a = f (σ a) :=
  hupd_apply_eq σ a _

theorem foldl_mutateAt_apply_ne (a r : Nat) (F : Nat → List Nat → List Nat) (h : r ≠ a) :
    ∀ (ks : List Nat) (σ : Heap),
      (ks.foldl (fun τ k => mutateAt τ a (F k)) σ) r = σ r := by
  intro ks
  induction ks with
  | nil => intro σ; rfl
  | cons k t ih =>
    intro σ
    show (t.foldl (fun τ k => mutateAt τ a (F k)) (mutateAt σ a (F k))) r = σ r
    rw [ih (mutateAt σ a (F k)), mutateAt_apply_ne _ _ _ _ h]

theorem foldl_mutateAt_apply_eq (a : Nat) (F : Nat → List Nat → List Nat) :
    ∀ (ks : List Nat) (σ : Heap),
      (ks.foldl (fun τ k => mutateAt τ a (F k)) σ) a
        = ks.foldl (fun l k => F k l) (σ a) := by
  intro ks
  induction ks with
  | nil => intro σ; rfl
  | cons k t ih =>
    intro σ
    show (t.foldl (fun τ k => mutateAt τ a (F k)) (mutateAt σ a (F k))) a
      = t.foldl (fun l k => F k l) ((F k) (σ a))
    rw [ih (mutateAt σ a (F k)), mutateAt_apply_eq]

theorem distance_from_point_heap_eq (p n : Nat) (σ : Heap) (alloc src : Nat) :
    distance_from_point_heap p n σ alloc src
      = (mutateAt (mutateAt ((((List.range (p - 1)).reverse).foldl
            (fun τ k => mutateAt τ alloc (undoPassEnc (2 ^ (k + 1)) n))
            (hupd σ alloc ((σ src).map (fun e => e))))) alloc (grayEncodeLoop n)) alloc
          (fun l => xorLoop n (tAccum p (l.getD (n - 1) 0)) l),
         alloc + 1,
         transpose_to_hilbert_integer p n
           ((mutateAt (mutateAt ((((List.range (p - 1)).reverse).foldl
              (fun τ k => mutateAt τ alloc (undoPassEnc (2 ^ (k + 1)) n))
              (hupd σ alloc ((σ src).map (fun e => e))))) alloc (grayEncodeLoop n)) alloc
            (fun l => xorLoop n (tAccum p (l.getD (n - 1) 0)) l)) alloc)) := rfl

theorem distance_from_point_heap_frame (p n : Nat) (σ : Heap) (alloc src r : Nat)
    (hr : r ≠ alloc) : (distance_from_point_heap p n σ alloc src).1 r = σ r := by
  rw [distance_from_point_heap_eq]
  show (mutateAt (mutateAt _ alloc _) alloc _) r = σ r
  rw [mutateAt_apply_ne _ _ _ _ hr, mutateAt_apply_ne _ _ _ _ hr,
    foldl_mutateAt_apply_ne alloc r _ hr, hupd_apply_ne _ _ _ _ hr]

theorem distance_from_point_heap_next (p n : Nat) (σ : Heap) (alloc src : Nat) :
    (distance_from_point_heap p n σ alloc src).2.1 = alloc + 1 := rfl

theorem distance_from_point_heap_result (p n : Nat) (σ : Heap) (alloc src : Nat)
    (hsrc : src ≠ alloc) :
    (distance_from_point_heap p n σ alloc src).2.2 = distance_from_point p n (σ src) := by
  rw [distance_from_point_heap_eq]
  show transpose_to_hilbert_integer p n
    ((mutateAt (mutateAt _ alloc _) alloc _) alloc) = _
  rw [mutateAt_apply_eq, mutateAt_apply_eq, foldl_mutateAt_apply_eq, hupd_apply_eq]
  have hid : (σ src).map (fun e => e) = σ src := List.map_id' (σ src)
  rw [hid]
  rfl

theorem dfph_aux (p n : Nat) (σ : Heap) (alloc : Nat) :
    ∀ addrs : List Nat, (∀ a ∈ addrs, a < alloc) →
      ∀ (σ2 : Heap) (alloc2 : Nat) (acc : List Nat),
        (∀ r : Nat, r < alloc → σ2 r = σ r) → alloc ≤ alloc2 →
        (∀ r : Nat, r < alloc →
          (addrs.foldl (fun st a =>
            let rr := distance_from_point_heap p n st.1 st.2.1 a
            (rr.1, rr.2.1, st.2.2 ++ [rr.2.2])) (σ2, alloc2, acc)).1 r = σ r)
        ∧ (addrs.foldl (fun st a =>
            let rr := distance_from_point_heap p n st.1 st.2.1 a
            (rr.1, rr.2.1, st.2.2 ++ [rr.2.2])) (σ2, alloc2, acc)).2.2
            = acc ++ addrs.map (fun a => distance_from_point p n (σ a)) := by
  intro addrs
  induction addrs with
  | nil =>
    intro _ σ2 alloc2 acc hagree _
    exact ⟨fun r hr => hagree r hr, by simp⟩
  | cons a t ih =>
    intro hmem σ2 alloc2 acc hagree hle
    have ha : a < alloc := hmem a (List.mem_cons_self a t)
    have hane : a ≠ alloc2 := by omega
    have hstep : (((a :: t).foldl (fun st a2 =>
        let rr := distance_from_point_heap p n st.1 st.2.1 a2
        (rr.1, rr.2.1, st.2.2 ++ [rr.2.2])) (σ2, alloc2, acc)))
        = (t.foldl (fun st a2 =>
            let rr := distance_from_point_heap p n st.1 st.2.1 a2
            (rr.1, rr.2.1, st.2.2 ++ [rr.2.2]))
          ((distance_from_point_heap p n σ2 alloc2 a).1,
           (distance_from_point_heap p n σ2 alloc2 a).2.1,
           acc ++ [(distance_from_point_heap p n σ2 alloc2 a).2.2])) := rfl
    rw [hstep, distance_from_point_heap_next,
      distance_from_point_heap_result p n σ2 alloc2 a hane]
    have hagree2 : ∀ r : Nat, r < alloc →
        (distance_from_point_heap p n σ2 alloc2 a).1 r = σ r := by
      intro r hr
      rw [distance_from_point_heap_frame p n σ2 alloc2 a r (by omega)]
      exact hagree r hr
    have hda : distance_from_point p n (σ2 a) = distance_from_point p n (σ a) := by
      rw [hagree a ha]
    rw [hda]
    have hrec := ih (fun a2 h2 => hmem a2 (List.mem_cons_of_mem a h2)) _ (alloc2 + 1)
      (acc ++ [distance_from_point p n (σ a)]) hagree2 (by omega)
    refine ⟨hrec.1, ?_⟩
    rw [hrec.2]
    simp

theorem points_from_distances_error (p n : Nat) (ds : List ℚ) (e : BatchError)
    (hff : firstFailure (checkDistance p n) 0 ds = some e) :
    points_from_distances p n ds = .error e := by
  unfold points_from_distances
  rw [hff]

theorem points_from_distances_ok (p n : Nat) (ds : List ℚ)
    (hff : firstFailure (checkDistance p n) 0 ds = none) :
    points_from_distances p n ds
      = .ok (ds.map (fun d => point_from_distance p n (pyToNat d))) := by
  unfold points_from_distances
  rw [hff]

theorem distances_from_points_error (p n : Nat) (pts : List (List ℚ)) (e : BatchError)
    (hff : firstFailure (checkPoint p n) 0 pts = some e) :
    distances_from_points p n pts = .error e := by
  unfold distances_from_points
  rw [hff]

theorem distances_from_points_ok (p n : Nat) (pts : List (List ℚ))
    (hff : firstFailure (checkPoint p n) 0 pts = none) :
    distances_from_points p n pts
      = .ok (pts.map (fun pt => distance_from_point p n (pt.map pyToNat))) := by
  unfold distances_from_points
  rw [hff]

theorem point_from_distance_comp_lt (p n h : Nat) (hp : 1 ≤ p) (hn : 1 ≤ n)
    (hh : h < 2 ^ (p * n)) : ∀ v ∈ point_from_distance p n h, v < 2 ^ p := by
  unfold point_from_distance
  exact gray_decode_comp_lt p n _ (transpose_comp_lt p n h hp hn hh)

theorem foldlO_eq_foldl {σ α : Type} (f : σ → α → Option σ) (g : σ → α → σ)
    (P : σ → Prop) :
    ∀ (l : List α) (s : σ), P s → (∀ t a, P t → a ∈ l → f t a = some (g t a)) →
      (∀ t a, P t → P (g t a)) → foldlO f s l = some (List.foldl g s l) := by
  intro l
  induction l with
  | nil => intro s _ _ _; rfl
  | cons a as ih =>
    intro s hs hfg hpres
    have h1 : f s a = some (g s a) := hfg s a hs (List.mem_cons_self a as)
    unfold foldlO
    rw [h1, List.foldl_cons]
    exact ih (g s a) (hpres s a hs)
      (fun t b ht hb => hfg t b ht (List.mem_cons_of_mem a hb)) hpres

theorem foldlO_pres {σ α : Type} (f : σ → α → Option σ) (P : σ → Prop)
    (hf : ∀ t a y, f t a = some y → P t → P y) :
    ∀ (l : List α) (s y : σ), foldlO f s l = some y → P s → P y := by
  intro l
  induction l with
  | nil =>
    intro s y h hs
    injection h with h2
    subst h2
    exact hs
  | cons a as ih =>
    intro s y h hs
    unfold foldlO at h
    cases hfa : f s a with
    | none =>
      rw [hfa] at h
      exact Option.noConfusion h
    | some z =>
      rw [hfa] at h
      exact ih z y h (hf s a z hfa hs)

theorem undoStepC_some (q : Nat) (x : List Nat) (i : Nat) (h : i < x.length) :
    undoStepC q x i = some (undoStep q x i) := by
  have h0 : 0 < x.length := Nat.lt_of_le_of_lt (Nat.zero_le i) h
  unfold undoStepC undoStep
  rw [List.getElem?_eq_getElem h, List.getElem?_eq_getElem h0,
    getD_eq_getElem x 0 i h, getD_eq_getElem x 0 0 h0]

theorem undoStepC_length (q : Nat) (x : List Nat) (i : Nat) (y : List Nat)
    (h : undoStepC q x i = some y) : y.length = x.length := by
  unfold undoStepC at h
  split at h
  · injection h with h2
    subst h2
    split
    · simp
    · simp
  all_goals exact Option.noConfusion h

theorem grayStepC_some (x : List Nat) (j : Nat) (h : j + 1 < x.length) :
    grayStepC x j = some (grayStep x j) := by
  have hj : j < x.length := by omega
  unfold grayStepC grayStep
  rw [List.getElem?_eq_getElem h, List.getElem?_eq_getElem hj,
    getD_eq_getElem x 0 (j + 1) h, getD_eq_getElem x 0 j hj]

theorem grayStepC_length (x : List Nat) (j : Nat) (y : List Nat)
    (h : grayStepC x j = some y) : y.length = x.length := by
  unfold grayStepC at h
  split at h
  · injection h with h2
    subst h2
    simp
  all_goals exact Option.noConfusion h

theorem xorStepC_some (t : Nat) (x : List Nat) (i : Nat) (h : i < x.length) :
    xorStepC t x i = some (x.set i ((x.getD i 0) ^^^ t)) := by
  unfold xorStepC
  rw [List.getElem?_eq_getElem h, getD_eq_getElem x 0 i h]

theorem xorStepC_length (t : Nat) (x : List Nat) (i : Nat) (y : List Nat)
    (h : xorStepC t x i = some y) : y.length = x.length := by
  unfold xorStepC at h
  split at h
  · injection h with h2
    subst h2
    simp
  all_goals exact Option.noConfusion h

theorem undoPassEncC_some (q n : Nat) (x : List Nat) (h : n ≤ x.length) :
    undoPassEncC q n x = some (undoPassEnc q n x) := by
  unfold undoPassEncC undoPassEnc
  exact foldlO_eq_foldl (undoStepC q) (undoStep q) (fun l => n ≤ l.length)
    (List.range n) x h
    (fun t a ht ha => undoStepC_some q t a (lt_of_lt_of_le (List.mem_range.mp ha) ht))
    (fun t a ht => by
      show n ≤ (undoStep q t a).length
      rw [length_undoStep]
      exact ht)

theorem undoPassEncC_length (q n : Nat) (x y : List Nat)
    (h : undoPassEncC q n x = some y) : y.length = x.length := by
  unfold undoPassEncC at h
  exact foldlO_pres (undoStepC q) (fun l => l.length = x.length)
    (fun t a z hz ht => by
      show z.length = x.length
      rw [undoStepC_length q t a z hz]
      exact ht)
    (List.range n) x y h rfl

theorem undoLoopEncC_some (p n : Nat) (x : List Nat) (h : n ≤ x.length) :
    undoLoopEncC p n x = some (undoLoopEnc p n x) := by
  unfold undoLoopEncC undoLoopEnc
  exact foldlO_eq_foldl _ (fun y k => undoPassEnc (2 ^ (k + 1)) n y)
    (fun l => n ≤ l.length) ((List.range (p - 1)).reverse) x h
    (fun t a ht _ => undoPassEncC_some (2 ^ (a + 1)) n t ht)
    (fun t a ht => by
      show n ≤ (undoPassEnc (2 ^ (a + 1)) n t).length
      rw [length_undoPassEnc]
      exact ht)

theorem undoLoopEncC_length (p n : Nat) (x y : List Nat)
    (h : undoLoopEncC p n x = some y) : y.length = x.length := by
  unfold undoLoopEncC at h
  exact foldlO_pres _ (fun l => l.length = x.length)
    (fun t a z hz ht => by
      show z.length = x.length
      rw [undoPassEncC_length (2 ^ (a + 1)) n t z hz]
      exact ht)
    ((List.range (p - 1)).reverse) x y h rfl

theorem length_grayEncodeLoop (n : Nat) (x : List Nat) :
    (grayEncodeLoop n x).length = x.length := by
  unfold grayEncodeLoop
  exact foldl_invariant grayStep (fun l => l.length = x.length) (List.range (n - 1)) x
    (fun a _ c hc => by
      show (grayStep c a).length = x.length
      rw [length_grayStep]
      exact hc) rfl

theorem grayEncodeLoopC_some (n : Nat) (x : List Nat) (h : n ≤ x.length) :
    grayEncodeLoopC n x = some (grayEncodeLoop n x) := by
  unfold grayEncodeLoopC grayEncodeLoop
  exact foldlO_eq_foldl grayStepC grayStep (fun l => n ≤ l.length)
    (List.range (n - 1)) x h
    (fun t a ht ha => grayStepC_some t a (by
      have h2 := List.mem_range.mp ha
      omega))
    (fun t a ht => by
      show n ≤ (grayStep t a).length
      rw [length_grayStep]
      exact ht)

theorem grayEncodeLoopC_length (n : Nat) (x y : List Nat)
    (h : grayEncodeLoopC n x = some y) : y.length = x.length := by
  unfold grayEncodeLoopC at h
  exact foldlO_pres grayStepC (fun l => l.length = x.length)
    (fun t a z hz ht => by
      show z.length = x.length
      rw [grayStepC_length t a z hz]
      exact ht)
    (List.range (n - 1)) x y h rfl

theorem tAccumC_some (p n : Nat) (x : List Nat) (hn : 0 < n) (h : n ≤ x.length) :
    tAccumC p n x = some (tAccum p (x.getD (n - 1) 0)) := by
  have hlt : n - 1 < x.length := by omega
  unfold tAccumC tAccum
  exact foldlO_eq_foldl _
    (fun t k => if (x.getD (n - 1) 0) &&& 2 ^ (k + 1) ≠ 0 then t ^^^ (2 ^ (k + 1) - 1) else t)
    (fun _ => True) ((List.range (p - 1)).reverse) 0 trivial
    (fun t a _ _ => by
      show (match x[n - 1]? with
        | some w => some (if w &&& 2 ^ (a + 1) ≠ 0 then t ^^^ (2 ^ (a + 1) - 1) else t)
        | none => none)
        = some (if (x.getD (n - 1) 0) &&& 2 ^ (a + 1) ≠ 0 then t ^^^ (2 ^ (a + 1) - 1) else t)
      rw [List.getElem?_eq_getElem hlt, getD_eq_getElem x 0 (n - 1) hlt])
    (fun _ _ _ => trivial)

theorem xorLoopC_some (n t : Nat) (x : List Nat) (h : n ≤ x.length) :
    xorLoopC n t x = some (xorLoop n t x) := by
  unfold xorLoopC xorLoop
  exact foldlO_eq_foldl (xorStepC t) (fun y i => y.set i ((y.getD i 0) ^^^ t))
    (fun l => n ≤ l.length) (List.range n) x h
    (fun y i hy hi => xorStepC_some t y i (lt_of_lt_of_le (List.mem_range.mp hi) hy))
    (fun y i hy => by
      show n ≤ (y.set i ((y.getD i 0) ^^^ t)).length
      rw [List.length_set]
      exact hy)

theorem xorLoopC_length (n t : Nat) (x y : List Nat)
    (h : xorLoopC n t x = some y) : y.length = x.length := by
  unfold xorLoopC at h
  exact foldlO_pres (xorStepC t) (fun l => l.length = x.length)
    (fun s a z hz hs => by
      show z.length = x.length
      rw [xorStepC_length t s a z hz]
      exact hs)
    (List.range n) x y h rfl

theorem readAll_some (x : List Nat) :
    ∀ is : List Nat, (∀ i ∈ is, i < x.length) →
      readAll x is = some (is.map (fun i => x.getD i 0)) := by
  intro is
  induction is with
  | nil => intro _; rfl
  | cons i is2 ih =>
    intro hall
    have hi : i < x.length := hall i (List.mem_cons_self i is2)
    have hrec := ih (fun j hj => hall j (List.mem_cons_of_mem i hj))
    unfold readAll
    rw [List.getElem?_eq_getElem hi, hrec, List.map_cons, getD_eq_getElem x 0 i hi]

theorem readAll_none (x : List Nat) (i0 : Nat) (h0 : x.length ≤ i0) :
    ∀ is : List Nat, i0 ∈ is → readAll x is = none := by
  intro is
  induction is with
  | nil => intro hmem; exact absurd hmem (List.not_mem_nil i0)
  | cons i is2 ih =>
    intro hmem
    unfold readAll
    rcases List.mem_cons.mp hmem with h | h
    · subst h
      rw [List.getElem?_eq_none h0]
    · rw [ih h]
      cases x[i]? <;> rfl

theorem transpose_to_hilbert_integerC_some (p n : Nat) (x : List Nat)
    (h : n ≤ x.length) :
    transpose_to_hilbert_integerC p n x = some (transpose_to_hilbert_integer p n x) := by
  unfold transpose_to_hilbert_integerC transpose_to_hilbert_integer
  rw [readAll_some x (List.range n)
    (fun i hi => lt_of_lt_of_le (List.mem_range.mp hi) h), Option.map_some']
  apply congrArg some
  apply congrArg bitsToNat
  apply congrArg List.flatten
  apply List.map_congr_left
  intro i _
  apply List.map_congr_left
  intro m hm
  rw [getD_map_range 0 (fun j => x.getD j 0) n m (List.mem_range.mp hm)]

theorem transpose_to_hilbert_integerC_none (p n : Nat) (x : List Nat)
    (h : x.length < n) : transpose_to_hilbert_integerC p n x = none := by
  unfold transpose_to_hilbert_integerC
  rw [readAll_none x x.length (le_refl x.length) (List.range n) (List.mem_range.mpr h)]
  rfl

theorem distance_from_point_checked_some (p n : Nat) (point : List Nat)
    (hn : 0 < n) (hlen : n ≤ point.length) :
    distance_from_point_checked p n point = some (distance_from_point p n point) := by
  have h1 : n ≤ (undoLoopEnc p n point).length := by
    rw [length_undoLoopEnc]
    exact hlen
  have h2 : n ≤ (grayEncodeLoop n (undoLoopEnc p n point)).length := by
    rw [length_grayEncodeLoop]
    exact h1
  have h3 : n ≤ (xorLoop n
      (tAccum p ((grayEncodeLoop n (undoLoopEnc p n point)).getD (n - 1) 0))
      (grayEncodeLoop n (undoLoopEnc p n point))).length := by
    rw [length_xorLoop]
    exact h2
  unfold distance_from_point_checked
  rw [undoLoopEncC_some p n point hlen]
  simp only [Option.some_bind]
  rw [grayEncodeLoopC_some n (undoLoopEnc p n point) h1]
  simp only [Option.some_bind]
  rw [tAccumC_some p n (grayEncodeLoop n (undoLoopEnc p n point)) hn h2]
  simp only [Option.some_bind]
  rw [xorLoopC_some n
    (tAccum p ((grayEncodeLoop n (undoLoopEnc p n point)).getD (n - 1) 0))
    (grayEncodeLoop n (undoLoopEnc p n point)) h2]
  simp only [Option.some_bind]
  rw [transpose_to_hilbert_integerC_some p n
    (xorLoop n (tAccum p ((grayEncodeLoop n (undoLoopEnc p n point)).getD (n - 1) 0))
      (grayEncodeLoop n (undoLoopEnc p n point))) h3]
  rfl

theorem distance_from_point_checked_none (p n : Nat) (point : List Nat)
    (hlen : point.length < n) :
    distance_from_point_checked p n point = none := by
  unfold distance_from_point_checked
  cases h1 : undoLoopEncC p n point with
  | none => rfl
  | some x1 =>
    simp only [Option.some_bind]
    cases h2 : grayEncodeLoopC n x1 with
    | none => rfl
    | some x2 =>
      simp only [Option.some_bind]
      cases h3 : tAccumC p n x2 with
      | none => rfl
      | some t =>
        simp only [Option.some_bind]
        cases h4 : xorLoopC n t x2 with
        | none => rfl
        | some x3 =>
          simp only [Option.some_bind]
          have e1 : x1.length = point.length := undoLoopEncC_length p n point x1 h1
          have e2 : x2.length = x1.length := grayEncodeLoopC_length n x1 x2 h2
          have e3 : x3.length = x2.length := xorLoopC_length n t x2 x3 h4
          exact transpose_to_hilbert_integerC_none p n x3 (by omega)

/-! The ten claims. -/

/-- C1: for every curve configuration with p > 0 and n > 0, the two public
transforms are mutual inverses: distance_from_point (point_from_distance h)
recovers every distance h in [0, 2^(p n) - 1], and point_from_distance
(distance_from_point pt) recovers every point of length n with components
in [0, 2^p - 1]; hence they form a bijection between the two domains. -/
theorem claim_C1 (p n : Nat) (hp : 0 < p) (hn : 0 < n) :
    (∀ h : Nat, h ≤ 2 ^ (p * n) - 1 →
      distance_from_point p n (point_from_distance p n h) = h)
    ∧ (∀ pt : List Nat, pt.length = n → (∀ v ∈ pt, v ≤ 2 ^ p - 1) →
      point_from_distance p n (distance_from_point p n pt) = pt) := by
  constructor
  · intro h hh
    have hh2 : h < 2 ^ (p * n) := by
      have := Nat.two_pow_pos (p * n)
      omega
    exact distance_point_roundtrip p n h hp hn hh2
  · intro pt hlen hpt
    apply point_distance_roundtrip p n pt hp hn hlen
    intro i
    apply getD_lt_of_forall _ _ _ (Nat.two_pow_pos p)
    intro v hv
    have := hpt v hv
    have := Nat.two_pow_pos p
    omega

/-- Witness for C1 at p = 1, n = 2, h = 3 and pt = [1, 0]. -/
theorem claim_C1_witness :
    distance_from_point 1 2 (point_from_distance 1 2 3) = 3
    ∧ point_from_distance 1 2 (distance_from_point 1 2 [1, 0]) = [1, 0] :=
  ⟨(claim_C1 1 2 (by decide) (by decide)).1 3 (by decide),
   (claim_C1 1 2 (by decide) (by decide)).2 [1, 0] (by decide) (by decide)⟩

/-- C2 counterexample: for p = 1, n = 2 (max_h = 3), the out-of-range
distance max_h + 1 = 4 is not rejected by point_from_distance: the call
returns the point [2, 2] (whose components even exceed max_x = 1) instead
of failing with OutOfRange. -/
theorem claim_C2_counterexample :
    point_from_distance 1 2 4 = [2, 2] ∧ 2 ^ 1 - 1 < 2 := by
  decide

/-- C2 amended: point_from_distance itself performs no validation - it
returns an n-component point for every nonnegative integral distance,
including distances above max_h - and the OutOfRange / InvalidType
rejection of the claim is performed by the batch wrapper
points_from_distances, which fails exactly when some distance in the batch
is non-integral, above max_h = 2^(p n) - 1, or below 0. -/
theorem claim_C2_amended (p n : Nat) (hp : 0 < p) (hn : 0 < n) :
    (∀ h : Nat, (point_from_distance p n h).length = n)
    ∧ (∀ ds : List ℚ,
        (∃ e, points_from_distances p n ds = .error e)
          ↔ ∃ d ∈ ds, ¬ (pyMod1 d = 0 ∧ d ≤ ((2 ^ (p * n) - 1 : Nat) : ℚ) ∧ 0 ≤ d)) := by
  refine ⟨fun h => length_point_from_distance p n h, fun ds => ?_⟩
  cases hff : firstFailure (checkDistance p n) 0 ds with
  | none =>
    have hall := (firstFailure_none_iff (checkDistance p n) ds 0).mp hff
    constructor
    · rintro ⟨e, he⟩
      rw [points_from_distances_ok p n ds hff] at he
      exact Except.noConfusion he
    · rintro ⟨d, hd, hbad⟩
      exact absurd ((checkDistance_none_iff p n d).mp (hall d hd)) hbad
  | some e0 =>
    constructor
    · intro _
      have hnotall : ¬ ∀ d ∈ ds, checkDistance p n d = none := by
        intro hall
        rw [(firstFailure_none_iff (checkDistance p n) ds 0).mpr hall] at hff
        exact Option.noConfusion hff
      push_neg at hnotall
      obtain ⟨d, hd, hne⟩ := hnotall
      exact ⟨d, hd, fun hvalid => hne ((checkDistance_none_iff p n d).mpr hvalid)⟩
    · intro _
      exact ⟨e0, points_from_distances_error p n ds e0 hff⟩

/-- Witness for C2 amended at p = 1, n = 2, h = 9 and the batch [4]. -/
theorem claim_C2_amended_witness :
    (point_from_distance 1 2 9).length = 2
    ∧ ((∃ e, points_from_distances 1 2 [((4 : Nat) : ℚ)] = .error e)
        ↔ ∃ d ∈ [((4 : Nat) : ℚ)],
          ¬ (pyMod1 d = 0 ∧ d ≤ ((2 ^ (1 * 2) - 1 : Nat) : ℚ) ∧ 0 ≤ d)) :=
  ⟨(claim_C2_amended 1 2 (by decide) (by decide)).1 9,
   (claim_C2_amended 1 2 (by decide) (by decide)).2 [((4 : Nat) : ℚ)]⟩

/-- C3 counterexample: for p = 1, n = 2, the 3-component point [0, 1, 5] is
not rejected by distance_from_point: the call returns the distance 1
computed from the first two components instead of failing with
DimensionMismatch, and the point [2, 3] with both components above
max_x = 1 returns the distance 3 instead of failing with OutOfRange. -/
theorem claim_C3_counterexample :
    distance_from_point 1 2 [0, 1, 5] = 1 ∧ distance_from_point 1 2 [2, 3] = 3 := by
  decide

/-- C3 amended: distance_from_point itself performs none of the claimed
validation.  A point shorter than n hits an unguarded IndexError from list
subscripting (modelled by the bounds-checked embedding returning none),
not a DimensionMismatch error; every point of length at least n - even one
longer than n or with components above 2^p - 1 - returns a distance
without error.  The DimensionMismatch / OutOfRange / InvalidType rejection
of the claim is performed only by the batch wrapper distances_from_points,
which fails exactly when some point in the batch has length different from
n, a component outside [0, 2^p - 1], or a non-integral component. -/
theorem claim_C3_amended (p n : Nat) (hp : 0 < p) (hn : 0 < n) :
    (∀ pt : List Nat,
      (pt.length < n → distance_from_point_checked p n pt = none)
      ∧ (n ≤ pt.length →
          distance_from_point_checked p n pt = some (distance_from_point p n pt)))
    ∧ (∀ pts : List (List ℚ),
      (∃ e, distances_from_points p n pts = .error e)
        ↔ ∃ pt ∈ pts, ¬ (pt.length = n
            ∧ ∀ e2 ∈ pt, e2 ≤ ((2 ^ p - 1 : Nat) : ℚ) ∧ 0 ≤ e2 ∧ pyMod1 e2 = 0)) := by
  refine ⟨fun pt => ⟨fun hshort => distance_from_point_checked_none p n pt hshort,
    fun hlong => distance_from_point_checked_some p n pt hn hlong⟩, fun pts => ?_⟩
  cases hff : firstFailure (checkPoint p n) 0 pts with
  | none =>
    have hall := (firstFailure_none_iff (checkPoint p n) pts 0).mp hff
    constructor
    · rintro ⟨e, he⟩
      rw [distances_from_points_ok p n pts hff] at he
      exact Except.noConfusion he
    · rintro ⟨pt, hpt, hbad⟩
      exact absurd ((checkPoint_none_iff p n pt).mp (hall pt hpt)) hbad
  | some e0 =>
    constructor
    · intro _
      have hnotall : ¬ ∀ pt ∈ pts, checkPoint p n pt = none := by
        intro hall
        rw [(firstFailure_none_iff (checkPoint p n) pts 0).mpr hall] at hff
        exact Option.noConfusion hff
      push_neg at hnotall
      obtain ⟨pt, hpt, hne⟩ := hnotall
      exact ⟨pt, hpt, fun hvalid => hne ((checkPoint_none_iff p n pt).mpr hvalid)⟩
    · intro _
      exact ⟨e0, distances_from_points_error p n pts e0 hff⟩

/-- Witness for C3 amended at p = 1, n = 2: the 1-component point [5]
raises (checked embedding returns none), the 2-component point [1, 0]
returns its distance, and the batch [[0]] is rejected. -/
theorem claim_C3_amended_witness :
    distance_from_point_checked 1 2 [5] = none
    ∧ distance_from_point_checked 1 2 [1, 0] = some (distance_from_point 1 2 [1, 0])
    ∧ ((∃ e, distances_from_points 1 2 [[((0 : Nat) : ℚ)]] = .error e)
        ↔ ∃ pt ∈ [[((0 : Nat) : ℚ)]], ¬ (pt.length = 2
            ∧ ∀ e2 ∈ pt, e2 ≤ ((2 ^ 1 - 1 : Nat) : ℚ) ∧ 0 ≤ e2 ∧ pyMod1 e2 = 0)) :=
  ⟨((claim_C3_amended 1 2 (by decide) (by decide)).1 [5]).1 (by decide),
   ((claim_C3_amended 1 2 (by decide) (by decide)).1 [1, 0]).2 (by decide),
   (claim_C3_amended 1 2 (by decide) (by decide)).2 [[((0 : Nat) : ℚ)]]⟩

/-- C4: the transpose codec is an exact bijection: packing then unpacking
is the identity on distances in [0, 2^(p n) - 1], and unpacking then
packing is the identity on n-component arrays with entries in
[0, 2^p - 1]. -/
theorem claim_C4 (p n : Nat) (hp : 0 < p) (hn : 0 < n) :
    (∀ h : Nat, h ≤ 2 ^ (p * n) - 1 →
      transpose_to_hilbert_integer p n (hilbert_integer_to_transpose p n h) = h)
    ∧ (∀ x : List Nat, x.length = n → (∀ v ∈ x, v ≤ 2 ^ p - 1) →
      hilbert_integer_to_transpose p n (transpose_to_hilbert_integer p n x) = x) := by
  constructor
  · intro h hh
    apply transpose_untranspose p n h hp hn
    have := Nat.two_pow_pos (p * n)
    omega
  · intro x hlen hx
    apply untranspose_transpose p n x hp hn hlen
    intro i
    apply getD_lt_of_forall _ _ _ (Nat.two_pow_pos p)
    intro v hv
    have := hx v hv
    have := Nat.two_pow_pos p
    omega

/-- Witness for C4 at p = 1, n = 2, h = 2 and x = [1, 0]. -/
theorem claim_C4_witness :
    transpose_to_hilbert_integer 1 2 (hilbert_integer_to_transpose 1 2 2) = 2
    ∧ hilbert_integer_to_transpose 1 2 (transpose_to_hilbert_integer 1 2 [1, 0]) = [1, 0] :=
  ⟨(claim_C4 1 2 (by decide) (by decide)).1 2 (by decide),
   (claim_C4 1 2 (by decide) (by decide)).2 [1, 0] (by decide) (by decide)⟩

/-- C5: for the curve with p = 1 and n = 2, point_from_distance maps the
distances 0, 1, 2, 3 to the points [0,0], [0,1], [1,1], [1,0]. -/
theorem claim_C5 :
    point_from_distance 1 2 0 = [0, 0]
    ∧ point_from_distance 1 2 1 = [0, 1]
    ∧ point_from_distance 1 2 2 = [1, 1]
    ∧ point_from_distance 1 2 3 = [1, 0] := by
  decide

/-- C6: for both batch operations, every item is validated before any
transform runs: if some item fails its checks, the whole call returns an
error carrying the index of the first offending item (and the kind of its
first failing check), and no transformed results are produced; if every
item passes, the call returns the transforms of all items in order. -/
theorem claim_C6 (p n : Nat) :
    (∀ (ds : List ℚ) (j : Nat) (k : BatchKind), j < ds.length →
      (∀ i : Nat, i < j → checkDistance p n (ds.getD i 0) = none) →
      checkDistance p n (ds.getD j 0) = some k →
      points_from_distances p n ds = .error ⟨j, k⟩)
    ∧ (∀ (pts : List (List ℚ)) (j : Nat) (k : BatchKind), j < pts.length →
      (∀ i : Nat, i < j → checkPoint p n (pts.getD i []) = none) →
      checkPoint p n (pts.getD j []) = some k →
      distances_from_points p n pts = .error ⟨j, k⟩)
    ∧ (∀ ds : List ℚ, (∀ d ∈ ds, checkDistance p n d = none) →
      points_from_distances p n ds
        = .ok (ds.map (fun d => point_from_distance p n (pyToNat d))))
    ∧ (∀ pts : List (List ℚ), (∀ pt ∈ pts, checkPoint p n pt = none) →
      distances_from_points p n pts
        = .ok (pts.map (fun pt => distance_from_point p n (pt.map pyToNat)))) := by
  refine ⟨?_, ?_, ?_, ?_⟩
  · intro ds j k hj hprev hjk
    have h := firstFailure_at (checkDistance p n) 0 ds j 0 k hj hprev hjk
    rw [Nat.zero_add] at h
    exact points_from_distances_error p n ds _ h
  · intro pts j k hj hprev hjk
    have h := firstFailure_at (checkPoint p n) [] pts j 0 k hj hprev hjk
    rw [Nat.zero_add] at h
    exact distances_from_points_error p n pts _ h
  · intro ds hall
    exact points_from_distances_ok p n ds
      ((firstFailure_none_iff (checkDistance p n) ds 0).mpr hall)
  · intro pts hall
    exact distances_from_points_ok p n pts
      ((firstFailure_none_iff (checkPoint p n) pts 0).mpr hall)

/-- Witness for C6: an out-of-range distance at index 0, a wrong-length
point at index 0, and the empty valid batches. -/
theorem claim_C6_witness :
    points_from_distances 1 2 [((4 : Nat) : ℚ)] = .error ⟨0, .outOfRange⟩
    ∧ distances_from_points 1 2 [[((0 : Nat) : ℚ)]] = .error ⟨0, .dimensionMismatch⟩
    ∧ points_from_distances 1 2 [] = .ok []
    ∧ distances_from_points 1 2 [] = .ok [] :=
  ⟨(claim_C6 1 2).1 [((4 : Nat) : ℚ)] 0 .outOfRange (by decide)
      (fun i hi => absurd hi (by omega))
      (by
        show checkDistance 1 2 ((4 : Nat) : ℚ) = some .outOfRange
        unfold checkDistance
        rw [if_neg (not_not_intro ((pyMod1_eq_zero_iff _).mpr ⟨4, by simp⟩)),
          if_pos (Nat.cast_lt.mpr (by decide : (2 ^ (1 * 2) - 1 : Nat) < 4))]),
   (claim_C6 1 2).2.1 [[((0 : Nat) : ℚ)]] 0 .dimensionMismatch (by decide)
      (fun i hi => absurd hi (by omega))
      (by
        show checkPoint 1 2 [((0 : Nat) : ℚ)] = some .dimensionMismatch
        unfold checkPoint
        rw [if_pos (by decide : ([((0 : Nat) : ℚ)]).length ≠ 2)]),
   (claim_C6 1 2).2.2.1 [] (fun d hd => absurd hd (List.not_mem_nil d)),
   (claim_C6 1 2).2.2.2 [] (fun pt hpt => absurd hpt (List.not_mem_nil pt))⟩

/-- C7: the in-place XOR work of distance_from_point happens on a fresh
copy of the argument (line 211), so neither a single call nor the batch
distances_from_points changes any caller-visible list object: every
address allocated before the call holds the same list afterwards, and the
returned distances are those of the original values. -/
theorem claim_C7 (p n : Nat) (σ : Heap) (alloc : Nat) (addrs : List Nat)
    (hmem : ∀ a ∈ addrs, a < alloc) :
    (∀ src r : Nat, r ≠ alloc →
      (distance_from_point_heap p n σ alloc src).1 r = σ r)
    ∧ (∀ r : Nat, r < alloc →
      (distances_from_points_heap p n σ alloc addrs).1 r = σ r)
    ∧ (distances_from_points_heap p n σ alloc addrs).2.2
        = addrs.map (fun a => distance_from_point p n (σ a)) := by
  have h := dfph_aux p n σ alloc addrs hmem σ alloc [] (fun _ _ => rfl) (le_refl alloc)
  refine ⟨fun src r hr => distance_from_point_heap_frame p n σ alloc src r hr,
    h.1, ?_⟩
  have h2 := h.2
  rw [List.nil_append] at h2
  exact h2

/-- Witness for C7: one point object at address 0, fresh allocation at 1. -/
theorem claim_C7_witness :
    (∀ src r : Nat, r ≠ 1 →
      (distance_from_point_heap 1 2 (fun a => if a = 0 then [1, 0] else []) 1 src).1 r
        = (fun a => if a = 0 then [1, 0] else []) r)
    ∧ (∀ r : Nat, r < 1 →
      (distances_from_points_heap 1 2 (fun a => if a = 0 then [1, 0] else []) 1 [0]).1 r
        = (fun a => if a = 0 then [1, 0] else []) r)
    ∧ (distances_from_points_heap 1 2 (fun a => if a = 0 then [1, 0] else []) 1 [0]).2.2
        = [0].map (fun a => distance_from_point 1 2
            ((fun a2 => if a2 = 0 then [1, 0] else []) a)) :=
  claim_C7 1 2 (fun a => if a = 0 then [1, 0] else []) 1 [0]
    (fun a ha => by
      rw [List.mem_singleton.mp ha]
      decide)

/-- C8: with n_procs = 0, curve construction succeeds exactly for positive
integral p and n, yielding the derived bounds max_h = 2^(p n) - 1 and
max_x = 2^p - 1; for every other p or n (non-integral, zero or negative)
it fails with one of the four p/n constructor errors, all of which the
specification classifies as the single kind InvalidParameter. -/
theorem claim_C8 (p n : ℚ) :
    ((∃ pz nz : ℤ, p = (pz : ℚ) ∧ n = (nz : ℚ) ∧ 0 < pz ∧ 0 < nz) →
      hilbert_curve_init p n 0
        = .ok ⟨(Rat.floor p).toNat, (Rat.floor n).toNat, 0,
            2 ^ ((Rat.floor p).toNat * (Rat.floor n).toNat) - 1, 0,
            2 ^ (Rat.floor p).toNat - 1, some 0⟩)
    ∧ ((¬ ∃ pz nz : ℤ, p = (pz : ℚ) ∧ n = (nz : ℚ) ∧ 0 < pz ∧ 0 < nz) →
      ∃ e, hilbert_curve_init p n 0 = .error e
        ∧ (e = .pNotIntegral ∨ e = .nNotIntegral
            ∨ e = .pNotPositive ∨ e = .nNotPositive)) := by
  have hm0 : pyMod1 (0 : ℚ) = 0 := (pyMod1_eq_zero_iff 0).mpr ⟨0, by simp⟩
  have hf0 : Rat.floor (0 : ℚ) = 0 := by
    rw [rat_floor_eq_floor]
    exact Int.floor_zero
  constructor
  · rintro ⟨pz, nz, rfl, rfl, hpz, hnz⟩
    have hm1 : pyMod1 ((pz : ℤ) : ℚ) = 0 := (pyMod1_eq_zero_iff _).mpr ⟨pz, rfl⟩
    have hm2 : pyMod1 ((nz : ℤ) : ℚ) = 0 := (pyMod1_eq_zero_iff _).mpr ⟨nz, rfl⟩
    have hfp : Rat.floor ((pz : ℤ) : ℚ) = pz := by
      rw [rat_floor_eq_floor]
      exact Int.floor_intCast pz
    have hfn : Rat.floor ((nz : ℤ) : ℚ) = nz := by
      rw [rat_floor_eq_floor]
      exact Int.floor_intCast nz
    unfold hilbert_curve_init
    rw [if_neg (not_not_intro hm1), if_neg (not_not_intro hm2),
      if_neg (not_not_intro hm0), hfp, hfn, hf0,
      if_neg (by omega : ¬ pz ≤ 0), if_neg (by omega : ¬ nz ≤ 0),
      if_neg (by decide : ¬ (0 : ℤ) = -1), if_pos rfl]
  · intro hnot
    by_cases h1 : pyMod1 p = 0
    · obtain ⟨pz, rfl⟩ := (pyMod1_eq_zero_iff p).mp h1
      have hfp : Rat.floor ((pz : ℤ) : ℚ) = pz := by
        rw [rat_floor_eq_floor]
        exact Int.floor_intCast pz
      by_cases h2 : pyMod1 n = 0
      · obtain ⟨nz, rfl⟩ := (pyMod1_eq_zero_iff n).mp h2
        have hfn : Rat.floor ((nz : ℤ) : ℚ) = nz := by
          rw [rat_floor_eq_floor]
          exact Int.floor_intCast nz
        have hneg : pz ≤ 0 ∨ nz ≤ 0 := by
          by_contra hcon
          push_neg at hcon
          exact hnot ⟨pz, nz, rfl, rfl, by omega, by omega⟩
        by_cases hpneg : pz ≤ 0
        · refine ⟨.pNotPositive, ?_, by simp⟩
          unfold hilbert_curve_init
          rw [if_neg (not_not_intro h1), if_neg (not_not_intro h2),
            if_neg (not_not_intro hm0), hfp, if_pos hpneg]
        · refine ⟨.nNotPositive, ?_, by simp⟩
          unfold hilbert_curve_init
          rw [if_neg (not_not_intro h1), if_neg (not_not_intro h2),
            if_neg (not_not_intro hm0), hfp, hfn, if_neg hpneg,
            if_pos (by omega : nz ≤ 0)]
      · refine ⟨.nNotIntegral, ?_, by simp⟩
        unfold hilbert_curve_init
        rw [if_neg (not_not_intro h1), if_pos h2]
    · refine ⟨.pNotIntegral, ?_, by simp⟩
      unfold hilbert_curve_init
      rw [if_pos h1]

/-- Witness for C8: construction succeeds at p = 2, n = 3 with
max_h = 63 and max_x = 3, and fails at p = 0. -/
theorem claim_C8_witness :
    hilbert_curve_init ((2 : ℤ) : ℚ) ((3 : ℤ) : ℚ) 0
      = .ok ⟨(Rat.floor ((2 : ℤ) : ℚ)).toNat, (Rat.floor ((3 : ℤ) : ℚ)).toNat, 0,
          2 ^ ((Rat.floor ((2 : ℤ) : ℚ)).toNat * (Rat.floor ((3 : ℤ) : ℚ)).toNat) - 1, 0,
          2 ^ (Rat.floor ((2 : ℤ) : ℚ)).toNat - 1, some 0⟩
    ∧ ∃ e, hilbert_curve_init ((0 : ℤ) : ℚ) ((3 : ℤ) : ℚ) 0 = .error e
        ∧ (e = .pNotIntegral ∨ e = .nNotIntegral
            ∨ e = .pNotPositive ∨ e = .nNotPositive) :=
  ⟨(claim_C8 ((2 : ℤ) : ℚ) ((3 : ℤ) : ℚ)).1 ⟨2, 3, rfl, rfl, by decide, by decide⟩,
   (claim_C8 ((0 : ℤ) : ℚ) ((3 : ℤ) : ℚ)).2 (by
      rintro ⟨pz, nz, hpz, _, hpos, _⟩
      have : (0 : ℤ) = pz := Int.cast_injective hpz
      omega)⟩

/-- C9: for the curve with p = 5 and n = 3, packing the distance 10590
yields the transpose [13, 19, 6], and unpacking [13, 19, 6] yields 10590. -/
theorem claim_C9 :
    hilbert_integer_to_transpose 5 3 10590 = [13, 19, 6]
    ∧ transpose_to_hilbert_integer 5 3 [13, 19, 6] = 10590 := by
  decide

/-- C10: for every configuration with p > 0 and n > 0, the invert/exchange
step of the undo excess work loops keeps every component within
[0, 2^p - 1]; consequently point_from_distance maps every valid distance
to an n-component point with components in [0, 2^p - 1], and for every
valid point the array handed to _transpose_to_hilbert_integer (the result
of the XOR phases) fits in p bits per component, so the reconstructed
distance lies in [0, 2^(p n) - 1]. -/
theorem claim_C10 (p n : Nat) (hp : 0 < p) (hn : 0 < n) :
    (∀ (k : Nat) (x : List Nat) (i : Nat), k + 1 ≤ p →
      (∀ v ∈ x, v ≤ 2 ^ p - 1) → ∀ v ∈ undoStep (2 ^ (k + 1)) x i, v ≤ 2 ^ p - 1)
    ∧ (∀ h : Nat, h ≤ 2 ^ (p * n) - 1 →
        (point_from_distance p n h).length = n
        ∧ ∀ v ∈ point_from_distance p n h, v ≤ 2 ^ p - 1)
    ∧ (∀ pt : List Nat, pt.length = n → (∀ v ∈ pt, v ≤ 2 ^ p - 1) →
        (∀ v ∈ gray_encode p n pt, v ≤ 2 ^ p - 1)
        ∧ distance_from_point p n pt ≤ 2 ^ (p * n) - 1) := by
  have hconv : ∀ (x : List Nat), (∀ v ∈ x, v ≤ 2 ^ p - 1) → ∀ v ∈ x, v < 2 ^ p := by
    intro x hx v hv
    have := hx v hv
    have := Nat.two_pow_pos p
    omega
  have hconv2 : ∀ (x : List Nat), (∀ v ∈ x, v < 2 ^ p) → ∀ v ∈ x, v ≤ 2 ^ p - 1 := by
    intro x hx v hv
    have := hx v hv
    omega
  refine ⟨?_, ?_, ?_⟩
  · intro k x i hk hx
    exact hconv2 _ (undoStep_comp_lt p k (2 ^ (k + 1)) rfl hk x i (hconv x hx))
  · intro h hh
    have hh2 : h < 2 ^ (p * n) := by
      have := Nat.two_pow_pos (p * n)
      omega
    exact ⟨length_point_from_distance p n h,
      hconv2 _ (point_from_distance_comp_lt p n h hp hn hh2)⟩
  · intro pt hlen hpt
    have hptget : ∀ i : Nat, pt.getD i 0 < 2 ^ p :=
      fun i => getD_lt_of_forall _ _ _ (Nat.two_pow_pos p) (hconv pt hpt)
    constructor
    · exact hconv2 _ (forall_mem_of_getD _ _ (gray_encode_comp_lt p n pt hptget))
    · unfold distance_from_point
      have := untranspose_lt p n (gray_encode p n pt)
      omega

/-- Witness for C10 at p = 1, n = 2. -/
theorem claim_C10_witness :
    (∀ v ∈ undoStep (2 ^ (0 + 1)) [1, 0] 0, v ≤ 2 ^ 1 - 1)
    ∧ ((point_from_distance 1 2 3).length = 2
        ∧ ∀ v ∈ point_from_distance 1 2 3, v ≤ 2 ^ 1 - 1)
    ∧ ((∀ v ∈ gray_encode 1 2 [1, 0], v ≤ 2 ^ 1 - 1)
        ∧ distance_from_point 1 2 [1, 0] ≤ 2 ^ (1 * 2) - 1) :=
  ⟨(claim_C10 1 2 (by decide) (by decide)).1 0 [1, 0] 0 (by decide) (by decide),
   (claim_C10 1 2 (by decide) (by decide)).2.1 3 (by decide),
   (claim_C10 1 2 (by decide) (by decide)).2.2 [1, 0] (by decide) (by decide)⟩

end HilbertPy
